import Mathlib

/-!
# PoGo-Icons: the mapping and stylesheet scripts

A shallow embedding of `scripts/build-mapping.js`, `scripts/generate-css.js`
and the download loop of `scripts/fetch-sprites.js`, followed by the
properties established about them.

Text is a list of characters.  The regular expressions of the scripts have no
`u` flag and only ever delete or replace characters of fixed classes, so
working on code points instead of UTF-16 code units changes nothing (a lone
surrogate, which `Char` cannot hold, is outside the model).
-/

namespace PogoIcons

/-- JavaScript string, as its sequence of characters. -/
abbrev Str := List Char

/-! ## Built-ins of the JavaScript runtime -/

/-- The three locale/Unicode dependent built-ins the scripts call.  They are
not code of the repository, so the scripts are modelled over an arbitrary
runtime; `asciiHost` is the instance used to evaluate concrete inputs. -/
structure Host where
  /-- `String.prototype.toLowerCase` -/
  toLowerCase : Str → Str
  /-- `String.prototype.toUpperCase` -/
  toUpperCase : Str → Str
  /-- `String.prototype.localeCompare`: negative, zero or positive -/
  localeCompare : Str → Str → Int

/-- Code-point order on text, as a `localeCompare` result (-1, 0, 1). -/
def codePointCompare : Str → Str → Int
  | [], [] => 0
  | [], _ :: _ => -1
  | _ :: _, [] => 1
  | a :: s, b :: t =>
    if a.toNat < b.toNat then -1
    else if b.toNat < a.toNat then 1
    else codePointCompare s t

/-- A runtime restricted to ASCII case mapping and code-point collation.  Every
real runtime agrees with it on the case mapping of ASCII text. -/
def asciiHost : Host where
  toLowerCase := List.map Char.toLower
  toUpperCase := List.map Char.toUpper
  localeCompare := codePointCompare

/-- The regular-expression class `\s`: WhiteSpace and LineTerminator code points. -/
def isSpace (c : Char) : Bool :=
  let n := c.toNat
  n == 0x09 || n == 0x0A || n == 0x0B || n == 0x0C || n == 0x0D || n == 0x20 ||
  n == 0xA0 || n == 0x1680 || (0x2000 ≤ n && n ≤ 0x200A) || n == 0x2028 ||
  n == 0x2029 || n == 0x202F || n == 0x205F || n == 0x3000 || n == 0xFEFF

/-- Line terminators, the characters `.` does not match. -/
def isLineTerminator (c : Char) : Bool :=
  let n := c.toNat
  n == 0x0A || n == 0x0D || n == 0x2028 || n == 0x2029

/-- `s.replace(/[class]/g, '')`: delete every character of the class. -/
def deleteAll (p : Char → Bool) (s : Str) : Str :=
  s.filter (fun c => !p c)

/-- Scanner of `replaceRuns`; the flag says the previous character belonged to
the run being replaced. -/
def replaceRunsAux (p : Char → Bool) (r : Char) : Bool → Str → Str
  | _, [] => []
  | inRun, c :: t =>
    if p c then
      if inRun then replaceRunsAux p r true t else r :: replaceRunsAux p r true t
    else c :: replaceRunsAux p r false t

/-- `s.replace(/[class]+/g, r)`: every maximal run of class characters becomes
the single character `r`. -/
def replaceRuns (p : Char → Bool) (r : Char) (s : Str) : Str :=
  replaceRunsAux p r false s

/-- `s.trim()`: strip `\s` characters from both ends. -/
def trim (s : Str) : Str :=
  ((s.dropWhile isSpace).reverse.dropWhile isSpace).reverse

/-- `String(dex)` and the rendering of `dex` in a template literal, for a
non-negative integer species number. -/
def dexString (dex : Nat) : Str := (toString dex).toList

/-! ## build-mapping.js: class names -/

/-- Membership in the class `[a-z0-9]`. -/
def isLowerAlnum (c : Char) : Bool :=
  ('a'.toNat ≤ c.toNat && c.toNat ≤ 'z'.toNat) ||
    ('0'.toNat ≤ c.toNat && c.toNat ≤ '9'.toNat)

/-- Membership in the class `[A-Z0-9_]`. -/
def isUpperAlnumUnderscore (c : Char) : Bool :=
  ('A'.toNat ≤ c.toNat && c.toNat ≤ 'Z'.toNat) ||
    ('0'.toNat ≤ c.toNat && c.toNat ≤ '9'.toNat) || c == '_'

/-- The chain applied to `name` in `generateClassName` (lines 131-136). -/
def nameSlug (H : Host) (name : Str) : Str :=
  replaceRuns (fun c => c == '-') '-'
    (replaceRuns isSpace '-'
      (deleteAll (fun c => !(isLowerAlnum c || isSpace c || c == '-'))
        (deleteAll (fun c => c == '.' || c == ':')
          (deleteAll (fun c => c == '\'') (H.toLowerCase name)))))

/-- The chain applied to `form` in `generateClassName` (lines 139-144); it
differs from the name chain in keeping `%`. -/
def formSlug (H : Host) (form : Str) : Str :=
  replaceRuns (fun c => c == '-') '-'
    (replaceRuns isSpace '-'
      (deleteAll (fun c => !(isLowerAlnum c || isSpace c || c == '%' || c == '-'))
        (deleteAll (fun c => c == '.' || c == ':')
          (deleteAll (fun c => c == '\'') (H.toLowerCase form)))))

/-- `generateClassName(name, form)`: the form slug is appended after a hyphen
when `form` is truthy, that is, non-empty. -/
def generateClassName (H : Host) (name form : Str) : Str :=
  let cls := nameSlug H name
  if form ≠ [] then cls ++ '-' :: formSlug H form else cls

/-! ## build-mapping.js: form codes -/

/-- The values `resolveFormCode` can return and `obj[key]` can produce on an
object parsed from JSON whose own values are strings or null: besides those,
`undefined` and a member inherited from `Object.prototype`. -/
inductive JsVal where
  | undefined
  | null
  | str (s : Str)
  | inherited (key : Str)
  deriving DecidableEq, Repr

/-- Property names of `Object.prototype`, which every object literal and every
object built by `JSON.parse` inherits. -/
def objectPrototypeKeys : List Str :=
  ["constructor".toList, "hasOwnProperty".toList, "isPrototypeOf".toList,
   "propertyIsEnumerable".toList, "toLocaleString".toList, "toString".toList,
   "valueOf".toList, "__proto__".toList, "__defineGetter__".toList,
   "__defineSetter__".toList, "__lookupGetter__".toList, "__lookupSetter__".toList]

/-- `key in obj` for an object with the given own properties: own or inherited. -/
def hasProperty {α : Type} (own : List (Str × α)) (key : Str) : Bool :=
  (own.lookup key).isSome || objectPrototypeKeys.contains key

/-- `obj[key]`: the own value, else the inherited member, else `undefined`. -/
def getProperty {α : Type} (toVal : α → JsVal) (own : List (Str × α)) (key : Str) : JsVal :=
  match own.lookup key with
  | some v => toVal v
  | none => if objectPrototypeKeys.contains key then .inherited key else .undefined

/-- Own values of `formMap`: a code or an explicit null. -/
def codeVal : Option Str → JsVal
  | none => .null
  | some s => .str s

/-- JavaScript truthiness of a value. -/
def truthy : JsVal → Bool
  | .undefined => false
  | .null => false
  | .str s => s ≠ []
  | .inherited _ => true

/-- `resolveFormCode(dex, form, formMap, defaultForms)` (lines 151-170).  The
objects are given by their own properties; the diagnostic line is not modelled. -/
def resolveFormCode (H : Host) (dex : Nat) (form : Str)
    (formMap : List (Str × Option Str)) (defaultForms : List (Str × Str)) : JsVal :=
  if form = [] then .null
  else
    let dexStr := dexString dex
    if truthy (getProperty .str defaultForms dexStr) &&
        getProperty .str defaultForms dexStr == .str form then .null
    else if hasProperty formMap form then getProperty codeVal formMap form
    else
      .str (deleteAll (fun c => !isUpperAlnumUnderscore c)
        (replaceRuns (fun c => isSpace c || c == '-') '_' (H.toUpperCase form)))

/-- Failure of a script run: the only exception the modelled code can raise on
well-typed input is the TypeError of calling a missing method. -/
inductive JsError where
  | typeError
  deriving DecidableEq, Repr

/-- Sprite filename construction of `main` (lines 57-71) from the resolved form
code: the pair `(spriteFile, shinySpriteFile)`.  A falsy code takes the first
branch; `formCode.startsWith` exists only on strings. -/
def spriteFiles (dex : Nat) (formCode : JsVal) : Except JsError (Str × Str) :=
  if !truthy formCode then
    .ok ("pm".toList ++ dexString dex ++ ".icon.png".toList,
         "pm".toList ++ dexString dex ++ ".s.icon.png".toList)
  else
    match formCode with
    | .str code =>
      if code.head? = some 'c' then
        .ok ("pm".toList ++ dexString dex ++ ".".toList ++ code ++ ".icon.png".toList,
             "pm".toList ++ dexString dex ++ ".".toList ++ code ++ ".s.icon.png".toList)
      else
        .ok ("pm".toList ++ dexString dex ++ ".f".toList ++ code ++ ".icon.png".toList,
             "pm".toList ++ dexString dex ++ ".f".toList ++ code ++ ".s.icon.png".toList)
    | _ => .error .typeError

/-! ## build-mapping.js: splitting the display name -/

/-- The tail `\((.+)\)$` of the pattern of `parseNameAndForm`, tried at the
start of `rest`: the text of group 2.  `$` has no `m` flag, so the closing
parenthesis is the last character of the input and the greedy `.+` is
everything between, which must be non-empty and free of line terminators. -/
def matchGroup (rest : Str) : Option Str :=
  match rest with
  | '(' :: t =>
    match t.reverse with
    | ')' :: revBody =>
      if revBody ≠ [] ∧ revBody.all (fun c => !isLineTerminator c) then some revBody.reverse
      else none
    | _ => none
  | _ => none

/-- The part `\s*\((.+)\)$` tried at the start of `rest`: the greedy `\s*` takes
the whole whitespace run (a shorter one is followed by whitespace, never by the
parenthesis). -/
def matchTail (rest : Str) : Option Str :=
  matchGroup (rest.dropWhile isSpace)

/-- The pattern `^(.+?)\s*\((.+)\)$` on `pre ++ rest` with group 1 already
holding `pre`: the lazy group takes one more character (not a line terminator),
tries the rest of the pattern, and grows on failure.  Result: groups 1 and 2. -/
def matchName : Str → Str → Option (Str × Str)
  | _, [] => none
  | pre, c :: rest =>
    if isLineTerminator c then none
    else
      match matchTail rest with
      | some body => some (pre ++ [c], body)
      | none => matchName (pre ++ [c]) rest

/-- `parseNameAndForm(speciesName)` (lines 122-128): the pair `(name, form)`. -/
def parseNameAndForm (speciesName : Str) : Str × Str :=
  match matchName [] speciesName with
  | some (g1, g2) => (trim g1, trim g2)
  | none => (speciesName, [])

/-! ## build-mapping.js: the mapping -/

/-- Upstream record, with the fields `main` reads; `tags` may be absent. -/
structure Pokemon where
  speciesName : Str
  dex : Nat
  speciesId : Str
  tags : Option (List Str)
  deriving DecidableEq, Repr

/-- Entry of `species-map.json`. -/
structure Entry where
  name : Str
  form : Str
  dex : Nat
  className : Str
  pvpokeId : Str
  spriteFile : Str
  shinySpriteFile : Str
  tags : List Str
  deriving DecidableEq, Repr

/-- The two `continue` tests of the record loop (lines 40 and 42). -/
def skipRecord (tags : List Str) : Bool :=
  tags.contains "shadow".toList ||
    (tags.contains "duplicate".toList || tags.contains "duplicate1500".toList ||
      tags.contains "teambuilderexclude".toList)

/-- The tag allow-list of line 81. -/
def keptTags : List Str :=
  ["legendary".toList, "mythical".toList, "mega".toList, "ultrabeast".toList]

/-- Body of the record loop for a record that is not skipped (lines 47-82). -/
def mkEntry (H : Host) (formMap : List (Str × Option Str)) (defaultForms : List (Str × Str))
    (pokemon : Pokemon) : Except JsError Entry :=
  let tags := pokemon.tags.getD []
  let nf := parseNameAndForm pokemon.speciesName
  let dex := pokemon.dex
  let className := generateClassName H nf.1 nf.2
  let formCode := resolveFormCode H dex nf.2 formMap defaultForms
  match spriteFiles dex formCode with
  | .error e => .error e
  | .ok files =>
    .ok { name := nf.1, form := nf.2, dex := dex, className := className,
          pvpokeId := pokemon.speciesId, spriteFile := files.1, shinySpriteFile := files.2,
          tags := tags.filter (fun t => keptTags.contains t) }

/-- The record loop (lines 33-83) on the state `(speciesMap, skipped)`; an
exception leaves the loop and `main`. -/
def buildLoop (H : Host) (formMap : List (Str × Option Str)) (defaultForms : List (Str × Str)) :
    List Pokemon → List Entry × Nat → Except JsError (List Entry × Nat)
  | [], st => .ok st
  | pokemon :: rest, st =>
    if skipRecord (pokemon.tags.getD []) then
      buildLoop H formMap defaultForms rest (st.1, st.2 + 1)
    else
      match mkEntry H formMap defaultForms pokemon with
      | .error e => .error e
      | .ok entry => buildLoop H formMap defaultForms rest (st.1 ++ [entry], st.2)

/-- The comparator of line 86: `a.dex - b.dex || a.form.localeCompare(b.form)`. -/
def compareEntries (H : Host) (a b : Entry) : Int :=
  let d := (a.dex : Int) - (b.dex : Int)
  if d ≠ 0 then d else H.localeCompare a.form b.form

/-- `speciesMap.sort(compare)`: `Array.prototype.sort` is stable and, for a
consistent comparator, orders `a` before `b` when `compare(a, b) <= 0`; it is
modelled by the stable insertion sort. -/
def sortMapping (H : Host) (speciesMap : List Entry) : List Entry :=
  speciesMap.insertionSort (fun a b => compareEntries H a b ≤ 0)

/-- One round of the duplicate scan (lines 92-95) on `(seen, dupes)`. -/
def dupStep (st : List Str × List Str) (entry : Entry) : List Str × List Str :=
  (st.1.insert entry.className,
   if st.1.contains entry.className then st.2 ++ [entry.className] else st.2)

/-- The duplicate scan (lines 89-96): the final `dupes`. -/
def findDupes (speciesMap : List Entry) : List Str :=
  (speciesMap.foldl dupStep ([], [])).2

/-- What `main` of build-mapping.js leaves behind. -/
structure BuildResult where
  speciesMap : List Entry
  skipped : Nat
  dupes : List Str
  deriving DecidableEq, Repr

/-- The run of `main` from the loaded form codes and the fetched records (network,
file output and console lines are not modelled). -/
def buildMapping (H : Host) (formMap : List (Str × Option Str)) (defaultForms : List (Str × Str))
    (pokemonData : List Pokemon) : Except JsError BuildResult :=
  match buildLoop H formMap defaultForms pokemonData ([], 0) with
  | .error e => .error e
  | .ok st =>
    let sorted := sortMapping H st.1
    .ok { speciesMap := sorted, skipped := st.2, dupes := findDupes sorted }

/-! ## generate-css.js: rules and dex aliases -/

/-- The rule text pushed at lines 58-63 and 68-73 for a selector suffix and the
two sprite paths. -/
def ruleBlock (selector spritePath shinyPath : Str) : Str :=
  ".pogo-".toList ++ selector ++ " \x7b\n  --pogo-sprite: url('".toList ++ spritePath ++
    "');\n  --pogo-sprite-shiny: url('".toList ++ shinyPath ++ "');\n\x7d".toList

/-- `spritePath` of line 54, with `THEME = 'go'`. -/
def spritePath (entry : Entry) : Str := "sprites/go/regular/".toList ++ entry.spriteFile

/-- `shinyPath` of line 55. -/
def shinyPath (entry : Entry) : Str := "sprites/go/shiny/".toList ++ entry.shinySpriteFile

/-- The name-based rule of an entry. -/
def speciesRule (entry : Entry) : Str :=
  ruleBlock entry.className (spritePath entry) (shinyPath entry)

/-- The dex-number alias rule built from an entry. -/
def aliasRule (entry : Entry) : Str :=
  ruleBlock (dexString entry.dex) (spritePath entry) (shinyPath entry)

/-- Variables of the rule loop of generate-css.js (lines 45-51). -/
structure CssState where
  speciesRules : List Str
  dexAliases : List Str
  generated : Nat
  dexAliased : List Nat
  deriving DecidableEq, Repr

/-- One round of the rule loop (lines 53-76); `!entry.form` holds for the empty
form. -/
def cssStep (st : CssState) (entry : Entry) : CssState :=
  let st1 : CssState :=
    { st with speciesRules := st.speciesRules ++ [speciesRule entry],
              generated := st.generated + 1 }
  if entry.form = [] ∧ ¬ st1.dexAliased.contains entry.dex then
    { st1 with dexAliases := st1.dexAliases ++ [aliasRule entry],
               dexAliased := st1.dexAliased.insert entry.dex }
  else st1

/-- The rule loop over the species map. -/
def cssLoop (speciesMap : List Entry) : CssState :=
  speciesMap.foldl cssStep
    { speciesRules := [], dexAliases := [], generated := 0, dexAliased := [] }

/-- Whether a rule text has the selector `.pogo-{dex}`, that is, starts with
`.pogo-{dex} {`. -/
def hasDexSelector (dex : Nat) (rule : Str) : Bool :=
  (".pogo-".toList ++ dexString dex ++ " \x7b".toList).isPrefixOf rule

/-! ## generate-css.js: the minifier -/

/-- Length of the shortest prefix of `s` ending in `*/`, if there is one. -/
def commentEnd : Str → Option Nat
  | [] => none
  | c :: t =>
    if c = '*' ∧ t.head? = some '/' then some 2
    else (commentEnd t).map (fun k => k + 1)

/-- Scanner of `removeComments`; `skip` counts the characters of the current
match still to be dropped. -/
def removeCommentsAux : Nat → Str → Str
  | _, [] => []
  | skip + 1, _ :: t => removeCommentsAux skip t
  | 0, c :: t =>
    if c = '/' ∧ t.head? = some '*' then
      match commentEnd (t.drop 1) with
      | some k => removeCommentsAux (k + 1) t
      | none => c :: removeCommentsAux 0 t
    else c :: removeCommentsAux 0 t

/-- `css.replace(/\/\*[\s\S]*?\*\//g, '')`: scanning left to right, each `/*`
that has a `*/` after it is dropped up to the first such `*/`. -/
def removeComments (css : Str) : Str := removeCommentsAux 0 css

/-- The class `[{}:;,>~+]`. -/
def isPunct (c : Char) : Bool :=
  c == '\x7b' || c == '\x7d' || c == ':' || c == ';' || c == ',' || c == '>' || c == '~' ||
    c == '+'

/-- Whether the first character after the leading whitespace run is in the
punctuation class. -/
def punctAhead (s : Str) : Bool :=
  match s.dropWhile isSpace with
  | [] => false
  | c :: _ => isPunct c

/-- Scanner of `css.replace(/\s*([{}:;,>~+])\s*/g, '$1')`; `after` says the
scanner is inside the trailing `\s*` of a match.  A whitespace character is
dropped when a match is consuming it: as trailing space, or as part of a run
that reaches a punctuation character. -/
def stripAroundPunctAux : Bool → Str → Str
  | _, [] => []
  | after, c :: t =>
    if isPunct c then c :: stripAroundPunctAux true t
    else if isSpace c && (after || punctAhead t) then stripAroundPunctAux after t
    else c :: stripAroundPunctAux false t

/-- `css.replace(/\s*([{}:;,>~+])\s*/g, '$1')`. -/
def stripAroundPunct (css : Str) : Str := stripAroundPunctAux false css

/-- `css.replace(/;}/g, '}')`: a semicolon directly before a closing brace is
dropped. -/
def dropSemicolons : Str → Str
  | [] => []
  | c :: t =>
    if c = ';' ∧ t.head? = some '\x7d' then dropSemicolons t
    else c :: dropSemicolons t

/-- `css.replace(/^\s+/, '')`. -/
def trimStart (css : Str) : Str := css.dropWhile isSpace

/-- `css.replace(/\s+$/, '')`. -/
def trimEnd (css : Str) : Str := (css.reverse.dropWhile isSpace).reverse

/-- `minifyCSS(css)` (lines 120-128). -/
def minifyCSS (css : Str) : Str :=
  trimEnd (trimStart (dropSemicolons (stripAroundPunct
    (replaceRuns isSpace ' ' (removeComments css)))))

/-! ## fetch-sprites.js: the download loop -/

/-- `CONCURRENCY` of fetch-sprites.js. -/
def CONCURRENCY : Nat := 10

/-- Download task, with the fields the loop reads; `file` is
`path.basename(task.dest)`. -/
structure Task where
  label : Str
  type : Str
  className : Str
  file : Str
  deriving DecidableEq, Repr

/-- What the environment does to one `download(task)`: `fetch` throws, or answers
with a status; for a success status, `saved` says reading the body and
writing the file went through without an exception. -/
inductive FetchResult where
  | threw
  | response (status : Nat) (saved : Bool)
  deriving DecidableEq, Repr

/-- Entry of `missing-sprites.json`. -/
structure MissingRecord where
  className : Str
  type : Str
  file : Str
  deriving DecidableEq, Repr

/-- Variables shared by the downloads (lines 72-74). -/
structure FetchState where
  missing : List MissingRecord
  completed : Nat
  failed : Nat
  deriving DecidableEq, Repr

/-- `res.ok`: a status from 200 to 299. -/
def isOkStatus (status : Nat) : Bool := 200 ≤ status && status ≤ 299

/-- `download(task)` (lines 76-97) under the given behaviour of the environment. -/
def download (st : FetchState) (job : Task × FetchResult) : FetchState :=
  match job.2 with
  | .threw => { st with failed := st.failed + 1 }
  | .response status saved =>
    if !isOkStatus status then
      if status = 404 then
        { st with missing := st.missing ++
                    [{ className := job.1.className, type := job.1.type, file := job.1.file }],
                  failed := st.failed + 1 }
      else { st with failed := st.failed + 1 }
    else if saved then { st with completed := st.completed + 1 }
    else { st with failed := st.failed + 1 }

/-- The batch loop (lines 100-107): round `k` handles
`toDownload.slice(i, i + CONCURRENCY)` for `i = k * CONCURRENCY`.  The downloads
of a batch only append to `missing` and add to the counters, so they are run in
task order. -/
def fetchLoop (toDownload : List (Task × FetchResult)) : FetchState :=
  (List.range ((toDownload.length + CONCURRENCY - 1) / CONCURRENCY)).foldl
    (fun st k => ((toDownload.drop (k * CONCURRENCY)).take CONCURRENCY).foldl download st)
    { missing := [], completed := 0, failed := 0 }

/-! ## The form resolver as the specification words it -/

/-- The four-step decision sequence of the specification: empty form, the
default form of the species, a key of `formMap`, the synthesised fallback code;
"key" is read as an own key of the table. -/
def resolveFormCodeSpec (H : Host) (dex : Nat) (form : Str)
    (formMap : List (Str × Option Str)) (defaultForms : List (Str × Str)) : JsVal :=
  if form = [] then .null
  else if defaultForms.lookup (dexString dex) = some form then .null
  else
    match formMap.lookup form with
    | some v => codeVal v
    | none =>
      .str (deleteAll (fun c => !isUpperAlnumUnderscore c)
        (replaceRuns (fun c => isSpace c || c == '-') '_' (H.toUpperCase form)))

/-! ## Outcome classes of a download -/

/-- The four outcome classes of a download task. -/
inductive Outcome where
  | success
  | notFound
  | otherStatus
  | transportError
  deriving DecidableEq, Repr

/-- The class of an environment behaviour: HTTP 404, another non-success
status, an exception of `fetch` or of saving the body, or success. -/
def classify : FetchResult → Outcome
  | .threw => .transportError
  | .response status saved =>
    if !isOkStatus status then (if status = 404 then .notFound else .otherStatus)
    else if saved then .success else .transportError

/-- Number of jobs of a class. -/
def countOutcome (o : Outcome) (jobs : List (Task × FetchResult)) : Nat :=
  jobs.countP (fun job => classify job.2 = o)

/-! ## Retained records -/

/-- Tag list of a record, `pokemon.tags || []`. -/
def tagsOf (pokemon : Pokemon) : List Str := pokemon.tags.getD []

/-- The records the loop of `main` does not skip, in input order. -/
def retained (pokemonData : List Pokemon) : List Pokemon :=
  pokemonData.filter (fun pokemon => !skipRecord (tagsOf pokemon))

/-- Three sample records: a shadow record, a mega form and a plain one. -/
def sampleRecords : List Pokemon :=
  [ { speciesName := "Pikachu (Shadow)".toList, dex := 25, speciesId := "pikachu_shadow".toList,
      tags := some ["shadow".toList] },
    { speciesName := "Charizard (Mega X)".toList, dex := 6,
      speciesId := "charizard_mega_x".toList, tags := some ["mega".toList] },
    { speciesName := "Bulbasaur".toList, dex := 1, speciesId := "bulbasaur".toList,
      tags := none } ]

/-- The result of the builder on `sampleRecords` with empty form tables. -/
def sampleResult : BuildResult :=
  { speciesMap :=
      [ { name := "Bulbasaur".toList, form := [], dex := 1, className := "bulbasaur".toList,
          pvpokeId := "bulbasaur".toList, spriteFile := "pm1.icon.png".toList,
          shinySpriteFile := "pm1.s.icon.png".toList, tags := [] },
        { name := "Charizard".toList, form := "Mega X".toList, dex := 6,
          className := "charizard-mega-x".toList, pvpokeId := "charizard_mega_x".toList,
          spriteFile := "pm6.fMEGA_X.icon.png".toList,
          shinySpriteFile := "pm6.fMEGA_X.s.icon.png".toList, tags := ["mega".toList] } ],
    skipped := 1, dupes := [] }

/-! ## Patterns the minifier looks for -/

/-- Whether the text holds a comment block: `/*` with a `*/` after it. -/
def hasComment : Str → Bool
  | [] => false
  | c :: t =>
    (c == '/' && t.head? == some '*' && (commentEnd (t.drop 1)).isSome) || hasComment t

/-- Whether the text holds `;}`. -/
def hasSemicolonBrace : Str → Bool
  | [] => false
  | c :: t => (c == ';' && t.head? == some '\x7d') || hasSemicolonBrace t

/-! ## The shape of minified text -/

/-- Two neighbouring characters of minified text: a whitespace character has
neither whitespace nor punctuation next to it. -/
def Apart (a b : Char) : Prop :=
  (isSpace a = true → isSpace b = false ∧ isPunct b = false) ∧
  (isSpace b = true → isSpace a = false ∧ isPunct a = false)

/-- Text whose only whitespace is the space character, never doubled and never
next to punctuation. -/
def Tidy (s : Str) : Prop :=
  (∀ c ∈ s, isSpace c = true → c = ' ') ∧ List.Chain' Apart s

/-- Text without whitespace at either end. -/
def Trimmed (s : Str) : Prop :=
  (∀ x ∈ s.head?, isSpace x = false) ∧ (∀ x ∈ s.getLast?, isSpace x = false)

/-! # Properties -/

/-! ## Sprite filenames and form codes -/

/-- C1, as stated, fails: the form `?` resolves to the empty code, which is not
null and does not start with `c`, yet the files are the unsuffixed ones and not
`pm201.f.icon.png` / `pm201.f.s.icon.png`. -/
theorem spriteFiles_empty_code :
    resolveFormCode asciiHost 201 "?".toList [] [] = .str [] ∧
    spriteFiles 201 (.str []) = .ok ("pm201.icon.png".toList, "pm201.s.icon.png".toList) ∧
    spriteFiles 201 (.str []) ≠ .ok ("pm201.f.icon.png".toList, "pm201.f.s.icon.png".toList) := by
  refine ⟨by decide, by rfl, ?_⟩
  simp [spriteFiles, truthy, dexString]; decide

/-- C1, amended: for every dex and code, a null or empty code gives
`pm{dex}.icon.png` / `pm{dex}.s.icon.png`, a code starting with `c` gives
`pm{dex}.{code}.icon.png` / `pm{dex}.{code}.s.icon.png`, and every other
non-empty code gives `pm{dex}.f{code}.icon.png` / `pm{dex}.f{code}.s.icon.png`. -/
theorem spriteFiles_three_way (dex : Nat) (code : Str) :
    spriteFiles dex .null =
      .ok ("pm".toList ++ dexString dex ++ ".icon.png".toList,
           "pm".toList ++ dexString dex ++ ".s.icon.png".toList) ∧
    (code = [] → spriteFiles dex (.str code) =
      .ok ("pm".toList ++ dexString dex ++ ".icon.png".toList,
           "pm".toList ++ dexString dex ++ ".s.icon.png".toList)) ∧
    (code.head? = some 'c' → spriteFiles dex (.str code) =
      .ok ("pm".toList ++ dexString dex ++ ".".toList ++ code ++ ".icon.png".toList,
           "pm".toList ++ dexString dex ++ ".".toList ++ code ++ ".s.icon.png".toList)) ∧
    (code ≠ [] → code.head? ≠ some 'c' → spriteFiles dex (.str code) =
      .ok ("pm".toList ++ dexString dex ++ ".f".toList ++ code ++ ".icon.png".toList,
           "pm".toList ++ dexString dex ++ ".f".toList ++ code ++ ".s.icon.png".toList)) := by
  refine ⟨rfl, ?_, ?_, ?_⟩
  · intro h; subst h; rfl
  · intro h
    have hne : code ≠ [] := by intro h0; simp [h0] at h
    simp [spriteFiles, truthy, hne, h]
  · intro hne h
    simp [spriteFiles, truthy, hne, h]

/-- The three examples of the specification: null code with dex 1, `cLIBRE` with
dex 25, `MEGA_X` with dex 6. -/
theorem spriteFiles_three_way_witness :
    spriteFiles 1 .null = .ok ("pm1.icon.png".toList, "pm1.s.icon.png".toList) ∧
    spriteFiles 25 (.str "cLIBRE".toList) =
      .ok ("pm25.cLIBRE.icon.png".toList, "pm25.cLIBRE.s.icon.png".toList) ∧
    spriteFiles 6 (.str "MEGA_X".toList) =
      .ok ("pm6.fMEGA_X.icon.png".toList, "pm6.fMEGA_X.s.icon.png".toList) :=
  ⟨(spriteFiles_three_way 1 []).1,
   (spriteFiles_three_way 25 "cLIBRE".toList).2.2.1 (by decide),
   (spriteFiles_three_way 6 "MEGA_X".toList).2.2.2 (by decide) (by decide)⟩

/-- The test of line 157 on a non-empty form is the comparison with the own
entry of `defaultForms`. -/
theorem default_test_iff (defaultForms : List (Str × Str)) (key form : Str) (hf : form ≠ []) :
    (truthy (getProperty .str defaultForms key) &&
      getProperty .str defaultForms key == .str form) = true ↔
    defaultForms.lookup key = some form := by
  unfold getProperty
  cases hl : defaultForms.lookup key with
  | none =>
    by_cases hk : key ∈ objectPrototypeKeys <;> simp [hk, truthy]
  | some v =>
    by_cases hv : v = form
    · subst hv; simp [truthy, hf]
    · simp [truthy, hv]

/-- Away from the names inherited from `Object.prototype`, `resolveFormCode` is
the four-step decision sequence. -/
theorem resolveFormCode_eq_spec (H : Host) (dex : Nat) (form : Str)
    (formMap : List (Str × Option Str)) (defaultForms : List (Str × Str))
    (h : form ∉ objectPrototypeKeys ∨ (formMap.lookup form).isSome) :
    resolveFormCode H dex form formMap defaultForms =
      resolveFormCodeSpec H dex form formMap defaultForms := by
  unfold resolveFormCode resolveFormCodeSpec
  by_cases hf : form = []
  · simp [hf]
  · simp only [hf, if_false]
    by_cases hd : defaultForms.lookup (dexString dex) = some form
    · rw [if_pos ((default_test_iff defaultForms _ form hf).2 hd), if_pos hd]
    · rw [if_neg (fun hc => hd ((default_test_iff defaultForms _ form hf).1 hc)), if_neg hd]
      cases hl : formMap.lookup form with
      | some v => simp [hasProperty, getProperty, hl]
      | none =>
        have hk : form ∉ objectPrototypeKeys := by
          rcases h with h | h
          · exact h
          · simp [hl] at h
        simp [hasProperty, hl, hk]

/-- C2 at the form `constructor` with empty tables: the `in` test of line 162
finds the member inherited from `Object.prototype`, so the function returns
that member where the four-step sequence gives the fallback `CONSTRUCTOR`, and
the filename construction then fails on `formCode.startsWith`. -/
theorem resolveFormCode_inherited_member :
    resolveFormCode asciiHost 25 "constructor".toList [] [] = .inherited "constructor".toList ∧
    resolveFormCodeSpec asciiHost 25 "constructor".toList [] [] = .str "CONSTRUCTOR".toList ∧
    spriteFiles 25 (resolveFormCode asciiHost 25 "constructor".toList [] []) =
      .error .typeError := by
  refine ⟨by decide, by decide, by rfl⟩

/-! ## The download loop -/

/-- The batches of the loop cover the first `n * CONCURRENCY` jobs in order. -/
theorem batches_foldl (jobs : List (Task × FetchResult)) (st : FetchState) (n : Nat) :
    (List.range n).foldl
      (fun st k => ((jobs.drop (k * CONCURRENCY)).take CONCURRENCY).foldl download st) st =
    (jobs.take (n * CONCURRENCY)).foldl download st := by
  induction n with
  | zero => simp
  | succ n ih =>
    rw [List.range_succ, List.foldl_append, ih, Nat.succ_mul, List.take_add, List.foldl_append]
    simp

/-- The batch loop runs `download` once on every job, in order. -/
theorem fetchLoop_eq_foldl (jobs : List (Task × FetchResult)) :
    fetchLoop jobs = jobs.foldl download { missing := [], completed := 0, failed := 0 } := by
  unfold fetchLoop
  rw [batches_foldl]
  congr 1
  apply List.take_of_length_le
  have h : jobs.length ≤ (jobs.length + CONCURRENCY - 1) / CONCURRENCY * CONCURRENCY := by
    simp only [CONCURRENCY]
    omega
  exact h

/-- Effect of one download on the three shared variables, by outcome class. -/
theorem download_tally (st : FetchState) (job : Task × FetchResult) :
    (download st job).missing.length =
      st.missing.length + (if classify job.2 = .notFound then 1 else 0) ∧
    (download st job).failed = st.failed + (if classify job.2 = .success then 0 else 1) ∧
    (download st job).completed = st.completed + (if classify job.2 = .success then 1 else 0) := by
  obtain ⟨task, res⟩ := job
  cases res with
  | threw => simp [download, classify]
  | response status saved =>
    by_cases hok : isOkStatus status = true
    · cases saved <;> simp [download, classify, hok]
    · by_cases h404 : status = 404
      · subst h404
        simp [download, classify, hok]
      · simp [download, classify, hok, h404]

/-- Every job is in exactly one class. -/
theorem countOutcome_total (jobs : List (Task × FetchResult)) :
    countOutcome .success jobs + countOutcome .notFound jobs + countOutcome .otherStatus jobs +
      countOutcome .transportError jobs = jobs.length := by
  induction jobs with
  | nil => simp [countOutcome]
  | cons job rest ih =>
    simp only [countOutcome, List.countP_cons, List.length_cons] at ih ⊢
    cases hc : classify job.2 <;> simp <;> omega

/-- Effect of the downloads of a job list on the three shared variables. -/
theorem foldl_download_tally (jobs : List (Task × FetchResult)) (st : FetchState) :
    (jobs.foldl download st).missing.length = st.missing.length + countOutcome .notFound jobs ∧
    (jobs.foldl download st).failed =
      st.failed + (countOutcome .notFound jobs + countOutcome .otherStatus jobs +
        countOutcome .transportError jobs) ∧
    (jobs.foldl download st).completed = st.completed + countOutcome .success jobs := by
  induction jobs generalizing st with
  | nil => simp [countOutcome]
  | cons job rest ih =>
    rw [List.foldl_cons]
    obtain ⟨h1, h2, h3⟩ := ih (download st job)
    obtain ⟨g1, g2, g3⟩ := download_tally st job
    rw [h1, h2, h3, g1, g2, g3]
    simp only [countOutcome, List.countP_cons]
    cases hc : classify job.2 <;> simp <;> omega

/-- C10, as stated, fails: one task answered with HTTP 404 leaves the failed
tally at 1, while no task ended in another non-success status or a transport
error; the 404 is also recorded in `missing`. -/
theorem fetchLoop_counts_not_found_as_failed :
    (fetchLoop [(⟨"Pikachu".toList, "regular".toList, "pikachu".toList, "pm25.icon.png".toList⟩,
        .response 404 false)]).failed = 1 ∧
    countOutcome .otherStatus
      [(⟨"Pikachu".toList, "regular".toList, "pikachu".toList, "pm25.icon.png".toList⟩,
        FetchResult.response 404 false)] +
    countOutcome .transportError
      [(⟨"Pikachu".toList, "regular".toList, "pikachu".toList, "pm25.icon.png".toList⟩,
        FetchResult.response 404 false)] = 0 ∧
    (fetchLoop [(⟨"Pikachu".toList, "regular".toList, "pikachu".toList, "pm25.icon.png".toList⟩,
        .response 404 false)]).missing =
      [{ className := "pikachu".toList, type := "regular".toList,
         file := "pm25.icon.png".toList }] := by
  refine ⟨by decide, by decide, by decide⟩

/-- C10, amended: for every sequence of task outcomes the loop handles every
task (completed plus failed is the number of tasks), each 404 outcome adds
exactly one record to `missing`, and the failed tally is the number of tasks
whose outcome was a 404, another non-success status or a transport/IO error;
the completed tally is the number of successes. -/
theorem fetchLoop_tally (jobs : List (Task × FetchResult)) :
    (fetchLoop jobs).missing.length = countOutcome .notFound jobs ∧
    (fetchLoop jobs).failed =
      countOutcome .notFound jobs + countOutcome .otherStatus jobs +
        countOutcome .transportError jobs ∧
    (fetchLoop jobs).completed = countOutcome .success jobs ∧
    (fetchLoop jobs).completed + (fetchLoop jobs).failed = jobs.length := by
  rw [fetchLoop_eq_foldl]
  obtain ⟨h1, h2, h3⟩ :=
    foldl_download_tally jobs { missing := [], completed := 0, failed := 0 }
  simp only [List.length_nil, Nat.zero_add] at h1 h2 h3
  refine ⟨h1, h2, h3, ?_⟩
  rw [h2, h3]
  have := countOutcome_total jobs
  omega

/-! ## The record loop -/

/-- A finished loop has appended one entry per retained record, in order, and
counted the other records. -/
theorem buildLoop_ok (H : Host) (formMap : List (Str × Option Str))
    (defaultForms : List (Str × Str)) (pokemonData : List Pokemon) (st st' : List Entry × Nat)
    (h : buildLoop H formMap defaultForms pokemonData st = .ok st') :
    ∃ es, st'.1 = st.1 ++ es ∧
      List.Forall₂ (fun p e => mkEntry H formMap defaultForms p = .ok e)
        (retained pokemonData) es ∧
      st'.2 + (retained pokemonData).length = st.2 + pokemonData.length := by
  induction pokemonData generalizing st with
  | nil =>
    simp only [buildLoop, Except.ok.injEq] at h
    subst h
    exact ⟨[], by simp, by simp [retained], by simp [retained]⟩
  | cons p rest ih =>
    unfold buildLoop at h
    by_cases hs : skipRecord (p.tags.getD []) = true
    · rw [if_pos hs] at h
      obtain ⟨es, h1, h2, h3⟩ := ih _ h
      refine ⟨es, h1, ?_, ?_⟩
      · simpa [retained, tagsOf, hs] using h2
      · have hr : retained (p :: rest) = retained rest := by
          simp [retained, tagsOf, hs]
        rw [hr]
        simp only [List.length_cons] at h3 ⊢
        omega
    · rw [if_neg hs] at h
      cases hm : mkEntry H formMap defaultForms p with
      | error e => rw [hm] at h; cases h
      | ok entry =>
        rw [hm] at h
        obtain ⟨es, h1, h2, h3⟩ := ih _ h
        refine ⟨entry :: es, by simpa using h1, ?_, ?_⟩
        · have : retained (p :: rest) = p :: retained rest := by
            simp [retained, tagsOf, hs]
          rw [this]
          exact List.Forall₂.cons hm h2
        · have : retained (p :: rest) = p :: retained rest := by
            simp [retained, tagsOf, hs]
          rw [this]
          simp only [List.length_cons] at h3 ⊢
          omega

/-- The loop finishes when every retained record yields an entry. -/
theorem buildLoop_total (H : Host) (formMap : List (Str × Option Str))
    (defaultForms : List (Str × Str)) (pokemonData : List Pokemon) (st : List Entry × Nat)
    (h : ∀ p ∈ retained pokemonData, ∃ e, mkEntry H formMap defaultForms p = .ok e) :
    ∃ st', buildLoop H formMap defaultForms pokemonData st = .ok st' := by
  induction pokemonData generalizing st with
  | nil => exact ⟨st, rfl⟩
  | cons p rest ih =>
    unfold buildLoop
    by_cases hs : skipRecord (p.tags.getD []) = true
    · rw [if_pos hs]
      apply ih
      intro q hq
      apply h
      simp only [retained, List.mem_filter] at hq ⊢
      exact ⟨List.mem_cons_of_mem _ hq.1, hq.2⟩
    · rw [if_neg hs]
      have hp : p ∈ retained (p :: rest) := by
        simp [retained, tagsOf, hs]
      obtain ⟨e, he⟩ := h p hp
      rw [he]
      apply ih
      intro q hq
      apply h
      simp only [retained, List.mem_filter] at hq ⊢
      exact ⟨List.mem_cons_of_mem _ hq.1, hq.2⟩

/-- A retained record carries none of the four tags tested at lines 40 and 42. -/
theorem retained_tags (pokemonData : List Pokemon) (p : Pokemon) (hp : p ∈ retained pokemonData) :
    p ∈ pokemonData ∧ "shadow".toList ∉ tagsOf p ∧ "duplicate".toList ∉ tagsOf p ∧
      "duplicate1500".toList ∉ tagsOf p ∧ "teambuilderexclude".toList ∉ tagsOf p := by
  simp only [retained, List.mem_filter] at hp
  obtain ⟨hmem, hs⟩ := hp
  refine ⟨hmem, ?_⟩
  simp only [skipRecord, Bool.not_eq_true', Bool.or_eq_false_iff, List.contains_eq_any_beq,
    List.any_eq_false, beq_iff_eq] at hs
  obtain ⟨h1, ⟨h2, h3⟩, h4⟩ := hs
  exact ⟨fun hc => h1 _ hc rfl, fun hc => h2 _ hc rfl, fun hc => h3 _ hc rfl,
    fun hc => h4 _ hc rfl⟩

/-- Each element of the right list of a pointwise relation has a partner in the
left list. -/
theorem forall₂_exists_left {α β : Type} {R : α → β → Prop} {l₁ : List α}
    {l₂ : List β} (h : List.Forall₂ R l₁ l₂) {b : β} (hb : b ∈ l₂) : ∃ a ∈ l₁, R a b := by
  induction h with
  | nil => cases hb
  | cons hab _ ih =>
    rcases List.mem_cons.1 hb with rfl | hb'
    · exact ⟨_, List.mem_cons_self _ _, hab⟩
    · obtain ⟨a, ha, hr⟩ := ih hb'
      exact ⟨a, List.mem_cons_of_mem _ ha, hr⟩

/-- C3, as stated, fails: a record tagged `teambuilder-exclude` is not skipped
and its entry is in the mapping (the tag the loop tests has no hyphen). -/
theorem buildMapping_keeps_hyphenated_tag :
    buildMapping asciiHost [] []
      [{ speciesName := "Pikachu".toList, dex := 25, speciesId := "pikachu".toList,
         tags := some ["teambuilder-exclude".toList] }] =
    .ok { speciesMap :=
            [{ name := "Pikachu".toList, form := [], dex := 25, className := "pikachu".toList,
               pvpokeId := "pikachu".toList, spriteFile := "pm25.icon.png".toList,
               shinySpriteFile := "pm25.s.icon.png".toList, tags := [] }],
          skipped := 0, dupes := [] } := by
  rfl

/-- C3, amended: the builder excludes every record tagged `shadow`, `duplicate`,
`duplicate1500` or `teambuilderexclude`.  For every record list, each entry of a
produced mapping is the entry of an input record with none of these four tags,
the skipped count plus the number of entries is the number of records, and a
mapping is produced whenever the entry of every record that is not skipped can
be built. -/
theorem buildMapping_excludes_tagged (H : Host) (formMap : List (Str × Option Str))
    (defaultForms : List (Str × Str)) (pokemonData : List Pokemon) :
    (∀ r, buildMapping H formMap defaultForms pokemonData = .ok r →
      (∀ e ∈ r.speciesMap, ∃ p ∈ pokemonData, mkEntry H formMap defaultForms p = .ok e ∧
        "shadow".toList ∉ tagsOf p ∧ "duplicate".toList ∉ tagsOf p ∧
        "duplicate1500".toList ∉ tagsOf p ∧ "teambuilderexclude".toList ∉ tagsOf p) ∧
      r.skipped + r.speciesMap.length = pokemonData.length) ∧
    ((∀ p ∈ pokemonData, skipRecord (tagsOf p) = false →
        ∃ e, mkEntry H formMap defaultForms p = .ok e) →
      ∃ r, buildMapping H formMap defaultForms pokemonData = .ok r) := by
  constructor
  · intro r hr
    unfold buildMapping at hr
    cases hl : buildLoop H formMap defaultForms pokemonData ([], 0) with
    | error e => rw [hl] at hr; cases hr
    | ok st =>
      rw [hl] at hr
      simp only [Except.ok.injEq] at hr
      subst hr
      obtain ⟨es, h1, h2, h3⟩ := buildLoop_ok H formMap defaultForms pokemonData _ _ hl
      simp only [List.nil_append] at h1
      have hperm : (sortMapping H st.1).Perm es := by
        rw [h1]; exact List.perm_insertionSort _ _
      constructor
      · intro e he
        have he' : e ∈ es := hperm.mem_iff.1 he
        obtain ⟨p, hp, hpe⟩ := forall₂_exists_left h2 he'
        obtain ⟨hmem, ht⟩ := retained_tags pokemonData p hp
        exact ⟨p, hmem, hpe, ht⟩
      · have hlen : (sortMapping H st.1).length = (retained pokemonData).length := by
          rw [hperm.length_eq, h2.length_eq]
        simp only [hlen]
        omega
  · intro h
    obtain ⟨st, hst⟩ := buildLoop_total H formMap defaultForms pokemonData ([], 0) (by
      intro p hp
      simp only [retained, List.mem_filter] at hp
      exact h p hp.1 (by simpa using hp.2))
    exact ⟨_, by unfold buildMapping; rw [hst]⟩

/-- On the sample records the shadow record is skipped: the builder produces
`sampleResult`, with one skipped record and two entries. -/
theorem buildMapping_excludes_tagged_witness :
    (∃ r, buildMapping asciiHost [] [] sampleRecords = .ok r) ∧
    buildMapping asciiHost [] [] sampleRecords = .ok sampleResult ∧
    sampleResult.skipped + sampleResult.speciesMap.length = sampleRecords.length :=
  ⟨(buildMapping_excludes_tagged asciiHost [] [] sampleRecords).2 (by
      intro p hp hs
      simp only [sampleRecords, List.mem_cons, List.mem_singleton, List.not_mem_nil,
        or_false] at hp
      rcases hp with rfl | rfl | rfl
      · exact absurd hs (by decide)
      · exact ⟨_, rfl⟩
      · exact ⟨_, rfl⟩),
   by rfl,
   ((buildMapping_excludes_tagged asciiHost [] [] sampleRecords).1 sampleResult (by rfl)).2⟩

/-! ## The order of the mapping -/

/-- The comparator of the sort puts `a` first exactly when `a` has the smaller
dex, or the same dex and a form that does not come after. -/
theorem compareEntries_le_iff (H : Host) (a b : Entry) :
    compareEntries H a b ≤ 0 ↔
      a.dex < b.dex ∨ (a.dex = b.dex ∧ H.localeCompare a.form b.form ≤ 0) := by
  unfold compareEntries
  by_cases hd : (a.dex : Int) - (b.dex : Int) = 0
  · have : a.dex = b.dex := by omega
    simp [this]
  · simp only [ne_eq, hd, not_false_eq_true, if_true]
    constructor
    · intro h; left; omega
    · rintro (h | ⟨h, _⟩) <;> omega

/-- For a total and transitive form order the sorted mapping is ordered by
`(dex, form)` and holds the same entries. -/
theorem sortMapping_sorted (H : Host)
    (htotal : ∀ x y, H.localeCompare x y ≤ 0 ∨ H.localeCompare y x ≤ 0)
    (htrans : ∀ x y z, H.localeCompare x y ≤ 0 → H.localeCompare y z ≤ 0 →
      H.localeCompare x z ≤ 0)
    (speciesMap : List Entry) :
    (sortMapping H speciesMap).Perm speciesMap ∧
    List.Chain'
      (fun a b => a.dex < b.dex ∨ (a.dex = b.dex ∧ H.localeCompare a.form b.form ≤ 0))
      (sortMapping H speciesMap) := by
  refine ⟨List.perm_insertionSort _ _, ?_⟩
  haveI : IsTotal Entry (fun a b => compareEntries H a b ≤ 0) := ⟨by
    intro a b
    simp only [compareEntries_le_iff]
    rcases Nat.lt_trichotomy a.dex b.dex with h | h | h
    · exact Or.inl (Or.inl h)
    · rcases htotal a.form b.form with h' | h'
      · exact Or.inl (Or.inr ⟨h, h'⟩)
      · exact Or.inr (Or.inr ⟨h.symm, h'⟩)
    · exact Or.inr (Or.inl h)⟩
  haveI : IsTrans Entry (fun a b => compareEntries H a b ≤ 0) := ⟨by
    intro a b c
    simp only [compareEntries_le_iff]
    rintro (h1 | ⟨h1, h1'⟩) (h2 | ⟨h2, h2'⟩)
    · exact Or.inl (by omega)
    · exact Or.inl (by omega)
    · exact Or.inl (by omega)
    · exact Or.inr ⟨by omega, htrans _ _ _ h1' h2'⟩⟩
  have hs : List.Sorted (fun a b => compareEntries H a b ≤ 0) (sortMapping H speciesMap) :=
    List.sorted_insertionSort _ _
  exact (List.Pairwise.chain' hs).imp (fun {a b} h => (compareEntries_le_iff H a b).1 h)

/-- Code-point comparison is total. -/
theorem codePointCompare_total (x y : Str) :
    codePointCompare x y ≤ 0 ∨ codePointCompare y x ≤ 0 := by
  induction x generalizing y with
  | nil => cases y <;> simp [codePointCompare]
  | cons a s ih =>
    cases y with
    | nil => simp [codePointCompare]
    | cons b t =>
      simp only [codePointCompare]
      rcases Nat.lt_trichotomy a.toNat b.toNat with h | h | h
      · left; simp [h]
      · simp only [h, lt_self_iff_false, if_false]; exact ih t
      · right; simp [h]

/-- Code-point comparison is transitive. -/
theorem codePointCompare_trans (x y z : Str) (h1 : codePointCompare x y ≤ 0)
    (h2 : codePointCompare y z ≤ 0) : codePointCompare x z ≤ 0 := by
  induction x generalizing y z with
  | nil => cases z <;> simp [codePointCompare]
  | cons a s ih =>
    cases y with
    | nil => simp [codePointCompare] at h1
    | cons b t =>
      cases z with
      | nil => simp [codePointCompare] at h2
      | cons c u =>
        simp only [codePointCompare] at h1 h2 ⊢
        by_cases hab : a.toNat < b.toNat
        · by_cases hbc : b.toNat < c.toNat
          · have : a.toNat < c.toNat := by omega
            simp [this]
          · by_cases hcb : c.toNat < b.toNat
            · simp [hbc, hcb] at h2
            · have : a.toNat < c.toNat := by omega
              simp [this]
        · by_cases hba : b.toNat < a.toNat
          · simp [hab, hba] at h1
          · simp only [hab, hba, if_false] at h1
            by_cases hbc : b.toNat < c.toNat
            · have : a.toNat < c.toNat := by omega
              simp [this]
            · by_cases hcb : c.toNat < b.toNat
              · simp [hbc, hcb] at h2
              · simp only [hbc, hcb, if_false] at h2
                have e1 : ¬ a.toNat < c.toNat := by omega
                have e2 : ¬ c.toNat < a.toNat := by omega
                simp only [e1, e2, if_false]
                exact ih t u h1 h2

/-- C4: for a form order that is total and transitive, a mapping produced by the
builder is a permutation of the entries built from the retained records and is
sorted ascending by `(dex, form)`: of two adjacent entries the first has the
smaller dex, or the same dex and a form that does not come after the second's;
and a mapping is produced whenever the entry of every retained record can be
built.  The builder being a function of its input, so is the order. -/
theorem buildMapping_sorted_perm (H : Host)
    (htotal : ∀ x y, H.localeCompare x y ≤ 0 ∨ H.localeCompare y x ≤ 0)
    (htrans : ∀ x y z, H.localeCompare x y ≤ 0 → H.localeCompare y z ≤ 0 →
      H.localeCompare x z ≤ 0)
    (formMap : List (Str × Option Str)) (defaultForms : List (Str × Str))
    (pokemonData : List Pokemon) :
    (∀ r, buildMapping H formMap defaultForms pokemonData = .ok r →
      (∃ es, List.Forall₂ (fun p e => mkEntry H formMap defaultForms p = .ok e)
          (retained pokemonData) es ∧ r.speciesMap.Perm es) ∧
      List.Chain' (fun a b => a.dex < b.dex ∨
          (a.dex = b.dex ∧ H.localeCompare a.form b.form ≤ 0)) r.speciesMap) ∧
    ((∀ p ∈ retained pokemonData, ∃ e, mkEntry H formMap defaultForms p = .ok e) →
      ∃ r, buildMapping H formMap defaultForms pokemonData = .ok r) := by
  constructor
  · intro r hr
    unfold buildMapping at hr
    cases hl : buildLoop H formMap defaultForms pokemonData ([], 0) with
    | error e => rw [hl] at hr; cases hr
    | ok st =>
      rw [hl] at hr
      simp only [Except.ok.injEq] at hr
      subst hr
      obtain ⟨es, h1, h2, _⟩ := buildLoop_ok H formMap defaultForms pokemonData _ _ hl
      simp only [List.nil_append] at h1
      obtain ⟨hp, hc⟩ := sortMapping_sorted H htotal htrans st.1
      exact ⟨⟨es, h2, by rw [← h1]; exact hp⟩, hc⟩
  · intro h
    obtain ⟨st, hst⟩ := buildLoop_total H formMap defaultForms pokemonData ([], 0) h
    exact ⟨_, by unfold buildMapping; rw [hst]⟩

/-- On the sample records, with code-point collation, the builder produces
`sampleResult`: Bulbasaur (dex 1) before Charizard (dex 6), in order. -/
theorem buildMapping_sorted_perm_witness :
    buildMapping asciiHost [] [] sampleRecords = .ok sampleResult ∧
    List.Chain' (fun a b => a.dex < b.dex ∨
        (a.dex = b.dex ∧ asciiHost.localeCompare a.form b.form ≤ 0)) sampleResult.speciesMap :=
  ⟨by rfl, ((buildMapping_sorted_perm asciiHost codePointCompare_total codePointCompare_trans
      [] [] sampleRecords).1 sampleResult (by rfl)).2⟩

/-- Counting with the equality test of `DecidableEq` is counting with `==`. -/
theorem count_inst_irrel (l : List Str) (c : Str) :
    @List.count _ instBEqOfDecidableEq c l = List.count c l := by
  simp only [List.count_eq_countP]
  apply List.countP_congr
  intro x _
  simp

/-! ## The duplicate scan -/

/-- Occurrences of a class name in `dupes` after scanning a list from a given
state: those already collected, plus its occurrences in the list, less the
first one when the name had not been seen. -/
theorem foldl_dupStep_count (speciesMap : List Entry) (seen dupes : List Str) (c : Str) :
    (speciesMap.foldl dupStep (seen, dupes)).2.count c =
      dupes.count c +
        (if c ∈ seen then (speciesMap.map (fun e => e.className)).count c
         else (speciesMap.map (fun e => e.className)).count c - 1) := by
  induction speciesMap generalizing seen dupes with
  | nil => simp
  | cons e t ih =>
    rw [List.foldl_cons, show dupStep (seen, dupes) e = (seen.insert e.className,
      if seen.contains e.className then dupes ++ [e.className] else dupes) from rfl, ih]
    simp only [List.map_cons, List.count_cons, List.contains_eq_any_beq, List.any_eq_true,
      beq_iff_eq, exists_eq_right, List.mem_insert_iff]
    by_cases hc : e.className = c
    · subst hc
      by_cases hs : e.className ∈ seen
      · simp [hs, List.count_append]
        omega
      · simp [hs]
    · have hc' : ¬ c = e.className := fun h => hc h.symm
      by_cases hs : e.className ∈ seen
      · simp [hs, hc, hc', List.count_append]
      · simp [hs, hc, hc']

/-- Length of `dupes` after scanning a list from a given state. -/
theorem foldl_dupStep_length (speciesMap : List Entry) (seen dupes : List Str) :
    (speciesMap.foldl dupStep (seen, dupes)).2.length +
        ((speciesMap.map (fun e => e.className)).toFinset \ seen.toFinset).card =
      dupes.length + speciesMap.length := by
  induction speciesMap generalizing seen dupes with
  | nil => simp
  | cons e t ih =>
    rw [List.foldl_cons, show dupStep (seen, dupes) e = (seen.insert e.className,
      if seen.contains e.className then dupes ++ [e.className] else dupes) from rfl]
    have h := ih (seen.insert e.className)
      (if seen.contains e.className then dupes ++ [e.className] else dupes)
    simp only [List.map_cons, List.toFinset_cons, List.length_cons]
    have hins : (seen.insert e.className).toFinset = insert e.className seen.toFinset := by
      ext x; simp
    rw [hins] at h
    by_cases hs : e.className ∈ seen
    · have hs' : e.className ∈ seen.toFinset := List.mem_toFinset.2 hs
      have hc : seen.contains e.className = true := by simpa using hs
      rw [Finset.insert_eq_of_mem hs'] at h
      rw [Finset.insert_sdiff_of_mem _ hs']
      simp only [hc, if_true, List.length_append, List.length_singleton] at h ⊢
      omega
    · have hs' : e.className ∉ seen.toFinset := fun hh => hs (List.mem_toFinset.1 hh)
      have hc : seen.contains e.className = false := by simpa using hs
      rw [Finset.insert_sdiff_of_not_mem _ hs']
      have hcard : (insert e.className
          ((t.map (fun e => e.className)).toFinset \ seen.toFinset)).card =
          ((t.map (fun e => e.className)).toFinset \
            insert e.className seen.toFinset).card + 1 := by
        have hset : insert e.className
            ((t.map (fun e => e.className)).toFinset \ seen.toFinset) =
            insert e.className
              ((t.map (fun e => e.className)).toFinset \ insert e.className seen.toFinset) := by
          ext x
          simp only [Finset.mem_insert, Finset.mem_sdiff]
          tauto
        rw [hset, Finset.card_insert_of_not_mem]
        simp
      rw [hcard]
      simp only [hc, Bool.false_eq_true, if_false] at h ⊢
      omega

/-- C7: for every mapping, the duplicates list has as many entries as the
mapping has entries beyond its distinct class names, a class name occurring `k`
times in the mapping occurs `k - 1` times in the list, and the list is empty
if and only if the class names of the mapping are pairwise distinct. -/
theorem findDupes_reports_repeats (speciesMap : List Entry) :
    (findDupes speciesMap).length + (speciesMap.map (fun e => e.className)).dedup.length =
      speciesMap.length ∧
    (∀ c, (findDupes speciesMap).count c =
      (speciesMap.map (fun e => e.className)).count c - 1) ∧
    (findDupes speciesMap = [] ↔ (speciesMap.map (fun e => e.className)).Nodup) := by
  have hcount : ∀ c, (findDupes speciesMap).count c =
      (speciesMap.map (fun e => e.className)).count c - 1 := by
    intro c
    have := foldl_dupStep_count speciesMap [] [] c
    simpa [findDupes] using this
  refine ⟨?_, hcount, ?_⟩
  · have := foldl_dupStep_length speciesMap [] []
    simpa [findDupes, List.card_toFinset] using this
  · rw [List.nodup_iff_count_le_one]
    simp only [count_inst_irrel]
    constructor
    · intro h c
      have := hcount c
      rw [h] at this
      simp at this
      omega
    · intro h
      apply List.eq_nil_iff_forall_not_mem.2
      intro c hc
      have h1 := List.count_pos_iff.2 hc
      have h2 := hcount c
      have h3 := h c
      omega

/-! ## Dex aliases -/

/-- The alias rules added by the rule loop from a given state are built from a
sublist of the entries that holds, for each dex not yet aliased, the first
entry with an empty form and that dex, and nothing else. -/
theorem foldl_cssStep_aliases (speciesMap : List Entry) (st : CssState) :
    ∃ picked : List Entry, picked.Sublist speciesMap ∧
      (speciesMap.foldl cssStep st).dexAliases = st.dexAliases ++ picked.map aliasRule ∧
      ∀ d, picked.filter (fun e => e.dex = d) =
        if d ∈ st.dexAliased then []
        else (speciesMap.find? (fun e => e.form = [] ∧ e.dex = d)).toList := by
  induction speciesMap generalizing st with
  | nil => exact ⟨[], List.Sublist.slnil, by simp, by simp⟩
  | cons e t ih =>
    rw [List.foldl_cons]
    by_cases hc : e.form = [] ∧ ¬ st.dexAliased.contains e.dex = true
    · have hstep : cssStep st e =
          { speciesRules := st.speciesRules ++ [speciesRule e],
            dexAliases := st.dexAliases ++ [aliasRule e],
            generated := st.generated + 1,
            dexAliased := st.dexAliased.insert e.dex } := by
        unfold cssStep
        exact if_pos hc
      obtain ⟨picked, hsub, hal, hd⟩ := ih (cssStep st e)
      refine ⟨e :: picked, hsub.cons₂ e, ?_, ?_⟩
      · rw [hal, hstep]; simp
      · intro d
        have hd' := hd d
        rw [hstep] at hd'
        simp only [List.mem_insert_iff] at hd'
        have hnot : e.dex ∉ st.dexAliased := by simpa using hc.2
        by_cases hde : e.dex = d
        · subst hde
          simp only [true_or, if_true] at hd'
          simp [List.filter_cons, hd', hnot, hc.1]
        · have hde' : ¬ d = e.dex := fun h => hde h.symm
          simp only [hde', false_or] at hd'
          simp [List.filter_cons, hde, hd', List.find?_cons]
    · have hstep : cssStep st e =
          { speciesRules := st.speciesRules ++ [speciesRule e],
            dexAliases := st.dexAliases,
            generated := st.generated + 1,
            dexAliased := st.dexAliased } := by
        unfold cssStep
        exact if_neg hc
      obtain ⟨picked, hsub, hal, hd⟩ := ih (cssStep st e)
      refine ⟨picked, hsub.cons e, ?_, ?_⟩
      · rw [hal, hstep]
      · intro d
        have hd' := hd d
        rw [hstep] at hd'
        rw [hd']
        by_cases hds : d ∈ st.dexAliased
        · simp [hds]
        · simp only [hds, if_false]
          have : ¬ (e.form = [] ∧ e.dex = d) := by
            rintro ⟨hf, rfl⟩
            exact hc ⟨hf, by simpa using hds⟩
          simp [List.find?_cons, this]

/-- The dex-alias rules are built, in mapping order, from a selection of entries
in which each dex that has an entry with empty form is represented exactly once,
by the first such entry, and a dex without an empty-form entry is not
represented at all. -/
theorem cssLoop_alias_entries (speciesMap : List Entry) :
    ∃ picked : List Entry, picked.Sublist speciesMap ∧
      (cssLoop speciesMap).dexAliases = picked.map aliasRule ∧
      ∀ d, picked.filter (fun e => e.dex = d) =
        (speciesMap.find? (fun e => e.form = [] ∧ e.dex = d)).toList := by
  obtain ⟨picked, hsub, hal, hd⟩ := foldl_cssStep_aliases speciesMap
    { speciesRules := [], dexAliases := [], generated := 0, dexAliased := [] }
  exact ⟨picked, hsub, by simpa [cssLoop] using hal, by simpa using hd⟩

/-- The example of the specification: of two entries with dex 1, one with an
empty form and one with a form, only the first yields an alias rule. -/
theorem cssLoop_two_entries_example :
    (cssLoop
      [{ name := "Bulbasaur".toList, form := [], dex := 1, className := "bulbasaur".toList,
         pvpokeId := "bulbasaur".toList, spriteFile := "pm1.icon.png".toList,
         shinySpriteFile := "pm1.s.icon.png".toList, tags := [] },
       { name := "Bulbasaur".toList, form := "Fall".toList, dex := 1,
         className := "bulbasaur-fall".toList, pvpokeId := "bulbasaur_fall".toList,
         spriteFile := "pm1.fFALL.icon.png".toList,
         shinySpriteFile := "pm1.fFALL.s.icon.png".toList, tags := [] }]).dexAliases =
    [(".pogo-1 \x7b\n  --pogo-sprite: url('sprites/go/regular/pm1.icon.png');\n" ++
      "  --pogo-sprite-shiny: url('sprites/go/shiny/pm1.s.icon.png');\n\x7d").toList] := by
  decide

/-! ## Class names -/

/-- A character of a replaced text is the replacement or a kept character. -/
theorem mem_replaceRunsAux (p : Char → Bool) (r : Char) (b : Bool) (s : Str) (x : Char)
    (hx : x ∈ replaceRunsAux p r b s) : x = r ∨ (x ∈ s ∧ p x = false) := by
  induction s generalizing b with
  | nil => simp [replaceRunsAux] at hx
  | cons c t ih =>
    unfold replaceRunsAux at hx
    by_cases hp : p c = true
    · rw [if_pos hp] at hx
      cases b with
      | true =>
        simp only [if_true] at hx
        rcases ih _ hx with h | ⟨h1, h2⟩
        · exact Or.inl h
        · exact Or.inr ⟨List.mem_cons_of_mem _ h1, h2⟩
      | false =>
        simp only [Bool.false_eq_true, if_false, List.mem_cons] at hx
        rcases hx with h | hx
        · exact Or.inl h
        · rcases ih _ hx with h | ⟨h1, h2⟩
          · exact Or.inl h
          · exact Or.inr ⟨List.mem_cons_of_mem _ h1, h2⟩
    · rw [if_neg hp, List.mem_cons] at hx
      rcases hx with h | hx
      · subst h
        exact Or.inr ⟨List.mem_cons_self _ _, by simpa using hp⟩
      · rcases ih _ hx with h | ⟨h1, h2⟩
        · exact Or.inl h
        · exact Or.inr ⟨List.mem_cons_of_mem _ h1, h2⟩

/-- A text without characters of the class is left alone. -/
theorem replaceRunsAux_id (p : Char → Bool) (r : Char) (b : Bool) (s : Str)
    (h : ∀ c ∈ s, p c = false) : replaceRunsAux p r b s = s := by
  induction s generalizing b with
  | nil => rfl
  | cons c t ih =>
    unfold replaceRunsAux
    have hc : p c = false := h c (List.mem_cons_self _ _)
    simp only [hc, Bool.false_eq_true, if_false]
    rw [ih _ (fun d hd => h d (List.mem_cons_of_mem _ hd))]

/-- After hyphen runs are collapsed no two hyphens are adjacent; inside a run
the output does not start with a hyphen. -/
theorem replaceRunsAux_hyphen_chain (b : Bool) (s : Str) :
    List.Chain' (fun x y => ¬ (x = '-' ∧ y = '-'))
      (replaceRunsAux (fun c => c == '-') '-' b s) ∧
    (b = true → ∀ x ∈ (replaceRunsAux (fun c => c == '-') '-' b s).head?, x ≠ '-') := by
  induction s generalizing b with
  | nil => simp [replaceRunsAux]
  | cons c t ih =>
    unfold replaceRunsAux
    by_cases hc : c = '-'
    · subst hc
      simp only [beq_self_eq_true, if_true]
      cases b with
      | true => simpa using ih true
      | false =>
        simp only [Bool.false_eq_true, if_false, false_implies, and_true]
        rw [List.chain'_cons']
        exact ⟨fun y hy => by simpa using (ih true).2 rfl y hy, (ih true).1⟩
    · have hc' : (c == '-') = false := by simpa using hc
      simp only [hc', Bool.false_eq_true, if_false]
      refine ⟨?_, ?_⟩
      · rw [List.chain'_cons']
        exact ⟨fun y _ => by simp [hc], (ih false).1⟩
      · intro _ x hx
        simp only [List.head?_cons, Option.mem_def, Option.some.injEq] at hx
        subst hx; exact hc

/-- A text without adjacent hyphens is left alone by the hyphen collapse. -/
theorem replaceRunsAux_hyphen_id (b : Bool) (s : Str)
    (hch : List.Chain' (fun x y => ¬ (x = '-' ∧ y = '-')) s)
    (hb : b = true → ∀ x ∈ s.head?, x ≠ '-') :
    replaceRunsAux (fun c => c == '-') '-' b s = s := by
  induction s generalizing b with
  | nil => rfl
  | cons c t ih =>
    unfold replaceRunsAux
    rw [List.chain'_cons'] at hch
    by_cases hc : c = '-'
    · subst hc
      have hbf : b = false := by
        cases b with
        | false => rfl
        | true => exact absurd rfl (hb rfl '-' (by simp))
      subst hbf
      simp only [beq_self_eq_true, if_true, Bool.false_eq_true, if_false]
      rw [ih true hch.2 (fun _ x hx => by
        intro hxe
        exact hch.1 x hx ⟨rfl, hxe⟩)]
    · have hc' : (c == '-') = false := by simpa using hc
      simp only [hc', Bool.false_eq_true, if_false]
      rw [ih false hch.2 (by simp)]

/-- A character of `[a-z0-9]` is not whitespace. -/
theorem isLowerAlnum_not_space (c : Char) (h : isLowerAlnum c = true) : isSpace c = false := by
  simp only [isLowerAlnum, Bool.or_eq_true, Bool.and_eq_true, decide_eq_true_eq] at h
  have e1 : 'a'.toNat = 97 := rfl
  have e2 : 'z'.toNat = 122 := rfl
  have e3 : '0'.toNat = 48 := rfl
  have e4 : '9'.toNat = 57 := rfl
  rw [e1, e2, e3, e4] at h
  simp only [isSpace, Bool.or_eq_false_iff, Bool.and_eq_false_iff, beq_eq_false_iff_ne,
    decide_eq_false_iff_not, ne_eq]
  omega

/-- A character of `[a-z0-9]` is none of the deleted punctuation marks, the
hyphen or the percent sign. -/
theorem isLowerAlnum_ne (c : Char) (h : isLowerAlnum c = true) :
    c ≠ '\'' ∧ c ≠ '.' ∧ c ≠ ':' ∧ c ≠ '-' ∧ c ≠ '%' := by
  refine ⟨?_, ?_, ?_, ?_, ?_⟩ <;> (intro hc; subst hc; revert h; decide)

/-- The name chain yields characters of `[a-z0-9-]` only. -/
theorem nameSlug_chars (H : Host) (name : Str) (x : Char) (hx : x ∈ nameSlug H name) :
    isLowerAlnum x = true ∨ x = '-' := by
  unfold nameSlug at hx
  rcases mem_replaceRunsAux _ _ _ _ _ hx with h | ⟨h1, _⟩
  · exact Or.inr h
  · rcases mem_replaceRunsAux _ _ _ _ _ h1 with h | ⟨h2, h3⟩
    · exact Or.inr h
    · simp only [deleteAll, List.mem_filter, Bool.not_not, Bool.or_eq_true, beq_iff_eq] at h2
      rcases h2.2 with (h | h) | h
      · exact Or.inl h
      · rw [h] at h3; cases h3
      · exact Or.inr h

/-- The form chain yields characters of `[a-z0-9%-]` only. -/
theorem formSlug_chars (H : Host) (form : Str) (x : Char) (hx : x ∈ formSlug H form) :
    isLowerAlnum x = true ∨ x = '-' ∨ x = '%' := by
  unfold formSlug at hx
  rcases mem_replaceRunsAux _ _ _ _ _ hx with h | ⟨h1, _⟩
  · exact Or.inr (Or.inl h)
  · rcases mem_replaceRunsAux _ _ _ _ _ h1 with h | ⟨h2, h3⟩
    · exact Or.inr (Or.inl h)
    · simp only [deleteAll, List.mem_filter, Bool.not_not, Bool.or_eq_true, beq_iff_eq] at h2
      rcases h2.2 with ((h | h) | h) | h
      · exact Or.inl h
      · rw [h] at h3; cases h3
      · exact Or.inr (Or.inr h)
      · exact Or.inr (Or.inl h)

/-- The name chain yields no two adjacent hyphens. -/
theorem nameSlug_chain (H : Host) (name : Str) :
    List.Chain' (fun x y => ¬ (x = '-' ∧ y = '-')) (nameSlug H name) :=
  (replaceRunsAux_hyphen_chain false _).1

/-- The name chain leaves a text of `[a-z0-9-]` without adjacent hyphens as it
is, on a runtime whose lower-casing leaves such text as it is. -/
theorem nameSlug_fixed (H : Host)
    (hlow : ∀ s : Str, (∀ c ∈ s, isLowerAlnum c = true ∨ c = '-') → H.toLowerCase s = s)
    (s : Str) (hs : ∀ c ∈ s, isLowerAlnum c = true ∨ c = '-')
    (hch : List.Chain' (fun x y => ¬ (x = '-' ∧ y = '-')) s) : nameSlug H s = s := by
  unfold nameSlug
  rw [hlow s hs]
  have h1 : deleteAll (fun c => c == '\'') s = s := by
    apply List.filter_eq_self.2
    intro c hc
    rcases hs c hc with h | h
    · simpa using (isLowerAlnum_ne c h).1
    · subst h; decide
  have h2 : deleteAll (fun c => c == '.' || c == ':') s = s := by
    apply List.filter_eq_self.2
    intro c hc
    rcases hs c hc with h | h
    · have := isLowerAlnum_ne c h
      simp [this.2.1, this.2.2.1]
    · subst h; decide
  have h3 : deleteAll (fun c => !(isLowerAlnum c || isSpace c || c == '-')) s = s := by
    apply List.filter_eq_self.2
    intro c hc
    rcases hs c hc with h | h
    · simp [h]
    · subst h; decide
  have h4 : replaceRuns isSpace '-' s = s := by
    apply replaceRunsAux_id
    intro c hc
    rcases hs c hc with h | h
    · exact isLowerAlnum_not_space c h
    · subst h; decide
  rw [h1, h2, h3, h4]
  exact replaceRunsAux_hyphen_id false s hch (by simp)

/-- C5, as stated, fails: for the name `Zygarde` and the form `10%` the class
name is `zygarde-10%`, and normalising it again gives `zygarde-10`. -/
theorem generateClassName_not_idempotent :
    generateClassName asciiHost "Zygarde".toList "10%".toList = "zygarde-10%".toList ∧
    generateClassName asciiHost "zygarde-10%".toList [] = "zygarde-10".toList ∧
    generateClassName asciiHost (generateClassName asciiHost "Zygarde".toList "10%".toList) [] ≠
      generateClassName asciiHost "Zygarde".toList "10%".toList := by
  refine ⟨by decide, by decide, by decide⟩

/-- C5, amended: on a runtime whose lower-casing leaves text of `[a-z0-9-]` as
it is, for every name and form the class name `c = generateClassName(name, form)`
satisfies `generateClassName(c, '') = c` exactly when `c` has no `%` and no two
adjacent hyphens; this is the case for every name with the empty form. -/
theorem generateClassName_idempotent_iff (H : Host)
    (hlow : ∀ s : Str, (∀ c ∈ s, isLowerAlnum c = true ∨ c = '-') → H.toLowerCase s = s)
    (name form : Str) :
    (generateClassName H (generateClassName H name form) [] = generateClassName H name form ↔
      '%' ∉ generateClassName H name form ∧
      List.Chain' (fun x y => ¬ (x = '-' ∧ y = '-')) (generateClassName H name form)) ∧
    generateClassName H (generateClassName H name []) [] = generateClassName H name [] := by
  have hgen : ∀ s, generateClassName H s [] = nameSlug H s := by
    intro s; simp [generateClassName]
  constructor
  · rw [hgen]
    constructor
    · intro h
      constructor
      · intro hmem
        rw [← h] at hmem
        rcases nameSlug_chars H _ _ hmem with h1 | h1
        · revert h1; decide
        · revert h1; decide
      · rw [← h]; exact nameSlug_chain H _
    · rintro ⟨hpc, hch⟩
      apply nameSlug_fixed H hlow _ _ hch
      intro c hc
      have hc' : isLowerAlnum c = true ∨ c = '-' ∨ c = '%' := by
        by_cases hf : form = []
        · simp only [generateClassName, hf, ne_eq, not_true_eq_false, if_false] at hc
          rcases nameSlug_chars H _ _ hc with h1 | h1
          · exact Or.inl h1
          · exact Or.inr (Or.inl h1)
        · simp only [generateClassName, hf, ne_eq, not_false_eq_true, if_true, List.mem_append,
            List.mem_cons] at hc
          rcases hc with h | h | h
          · rcases nameSlug_chars H _ _ h with h1 | h1
            · exact Or.inl h1
            · exact Or.inr (Or.inl h1)
          · exact Or.inr (Or.inl h)
          · exact formSlug_chars H _ _ h
      rcases hc' with h | h | h
      · exact Or.inl h
      · exact Or.inr h
      · subst h; exact absurd hc hpc
  · rw [hgen, hgen]
    exact nameSlug_fixed H hlow _ (nameSlug_chars H name) (nameSlug_chain H name)

/-- ASCII lower-casing leaves text of `[a-z0-9-]` as it is. -/
theorem asciiHost_lower_fixed (s : Str) (hs : ∀ c ∈ s, isLowerAlnum c = true ∨ c = '-') :
    asciiHost.toLowerCase s = s := by
  show List.map Char.toLower s = s
  induction s with
  | nil => rfl
  | cons c t ih =>
    rw [List.map_cons, ih (fun d hd => hs d (List.mem_cons_of_mem _ hd))]
    congr 1
    have hc := hs c (List.mem_cons_self _ _)
    have hnu : ¬ (c.toNat ≥ 65 ∧ c.toNat ≤ 90) := by
      rcases hc with h | h
      · simp only [isLowerAlnum, Bool.or_eq_true, Bool.and_eq_true, decide_eq_true_eq] at h
        have e1 : 'a'.toNat = 97 := rfl
        have e2 : 'z'.toNat = 122 := rfl
        have e3 : '0'.toNat = 48 := rfl
        have e4 : '9'.toNat = 57 := rfl
        rw [e1, e2, e3, e4] at h
        omega
      · subst h; decide
    unfold Char.toLower
    exact if_neg hnu

/-- On the ASCII runtime: `Mr. Mime` with the form `Galarian` gives
`mr-mime-galarian`, which has no `%` and no adjacent hyphens and is left
unchanged by a second normalisation. -/
theorem generateClassName_idempotent_iff_witness :
    generateClassName asciiHost "Mr. Mime".toList "Galarian".toList = "mr-mime-galarian".toList ∧
    generateClassName asciiHost
        (generateClassName asciiHost "Mr. Mime".toList "Galarian".toList) [] =
      generateClassName asciiHost "Mr. Mime".toList "Galarian".toList :=
  ⟨by decide,
   ((generateClassName_idempotent_iff asciiHost asciiHost_lower_fixed "Mr. Mime".toList
      "Galarian".toList).1).2 ⟨by decide, by
        rw [show generateClassName asciiHost "Mr. Mime".toList "Galarian".toList =
          "mr-mime-galarian".toList from by decide]
        simp [String.toList]⟩⟩

/-! ## Splitting the display name -/

/-- The tail of the pattern matches a parenthesised group that ends the text. -/
theorem matchGroup_group (body : Str) (hbody : body ≠ [])
    (hlt : ∀ c ∈ body, isLineTerminator c = false) :
    matchGroup ('(' :: body ++ [')']) = some body := by
  have hrev : (body ++ [')']).reverse = ')' :: body.reverse := by simp
  have hall : (body.reverse.all fun c => !isLineTerminator c) = true := by
    simp only [List.all_eq_true, List.mem_reverse, Bool.not_eq_true']
    exact hlt
  have hne : body.reverse ≠ [] := by simpa using hbody
  simp only [matchGroup, List.cons_append, hrev, hne, ne_eq, not_false_eq_true, hall, and_self,
    if_true, List.reverse_reverse]

/-- The tail of the pattern needs an opening parenthesis first. -/
theorem matchGroup_none (rest : Str) (h : rest.head? ≠ some '(') : matchGroup rest = none := by
  unfold matchGroup
  split
  · simp at h
  · rfl

/-- A successful tail match: the text is an opening parenthesis, the group, and
a final closing parenthesis. -/
theorem matchGroup_some (rest body : Str) (h : matchGroup rest = some body) :
    rest = '(' :: body ++ [')'] := by
  unfold matchGroup at h
  split at h
  · rename_i t
    split at h
    · rename_i revBody hrev
      split at h
      · simp only [Option.some.injEq] at h
        subst h
        have : t = (')' :: revBody).reverse := by rw [← hrev, List.reverse_reverse]
        rw [this]
        simp
      · cases h
    · cases h
  · cases h

/-- Leading whitespace before the group is skipped. -/
theorem matchTail_group (sp body : Str) (hsp : ∀ c ∈ sp, isSpace c = true) (hbody : body ≠ [])
    (hlt : ∀ c ∈ body, isLineTerminator c = false) :
    matchTail (sp ++ '(' :: body ++ [')']) = some body := by
  unfold matchTail
  have : (sp ++ '(' :: body ++ [')']).dropWhile isSpace = '(' :: body ++ [')'] := by
    induction sp with
    | nil =>
      have h0 : isSpace '(' = false := by decide
      simp [List.dropWhile_cons, h0]
    | cons c t ih =>
      have hc : isSpace c = true := hsp c (List.mem_cons_self _ _)
      simp only [List.cons_append, List.dropWhile_cons, hc, if_true]
      simpa using ih (fun d hd => hsp d (List.mem_cons_of_mem _ hd))
  rw [this]
  exact matchGroup_group body hbody hlt

/-- No tail match when the first character after the whitespace is not an
opening parenthesis. -/
theorem matchTail_none (pre rest : Str) (hpre : ∀ c ∈ pre, c ≠ '(')
    (hns : ∃ c ∈ pre, isSpace c = false) : matchTail (pre ++ rest) = none := by
  unfold matchTail
  apply matchGroup_none
  induction pre with
  | nil => obtain ⟨c, hc, _⟩ := hns; cases hc
  | cons c t ih =>
    by_cases hc : isSpace c = true
    · simp only [List.cons_append, List.dropWhile_cons, hc, if_true]
      apply ih (fun d hd => hpre d (List.mem_cons_of_mem _ hd))
      obtain ⟨d, hd, hds⟩ := hns
      rcases List.mem_cons.1 hd with rfl | hd'
      · rw [hc] at hds; cases hds
      · exact ⟨d, hd', hds⟩
    · simp only [List.cons_append, List.dropWhile_cons, hc, Bool.false_eq_true, if_false,
        List.head?_cons, ne_eq, Option.some.injEq]
      exact hpre c (List.mem_cons_self _ _)

/-- The lazy first group stops at the first opening parenthesis: up to trailing
whitespace it is the text before that parenthesis. -/
theorem matchName_first_group (pre ws body acc : Str) (hne : pre ≠ [])
    (hpre : ∀ c ∈ pre, c ≠ '(' ∧ isLineTerminator c = false)
    (hws : ∀ c ∈ ws, isSpace c = true) (hbody : body ≠ [])
    (hlt : ∀ c ∈ body, isLineTerminator c = false) :
    ∃ p1 sp, pre = p1 ++ sp ∧ (∀ c ∈ sp, isSpace c = true) ∧
      matchName acc (pre ++ (ws ++ '(' :: body ++ [')'])) = some (acc ++ p1, body) := by
  induction pre generalizing acc with
  | nil => exact absurd rfl hne
  | cons c t ih =>
    have hc := hpre c (List.mem_cons_self _ _)
    have ht : ∀ d ∈ t, d ≠ '(' ∧ isLineTerminator d = false :=
      fun d hd => hpre d (List.mem_cons_of_mem _ hd)
    rw [List.cons_append, matchName]
    simp only [hc.2, Bool.false_eq_true, if_false]
    by_cases hall : ∀ d ∈ t, isSpace d = true
    · have hm : matchTail (t ++ (ws ++ '(' :: body ++ [')'])) = some body := by
        have := matchTail_group (t ++ ws) body (by
          intro d hd
          rcases List.mem_append.1 hd with h | h
          · exact hall d h
          · exact hws d h) hbody hlt
        simpa using this
      rw [hm]
      exact ⟨[c], t, rfl, hall, rfl⟩
    · have hns : ∃ d ∈ t, isSpace d = false := by
        by_contra hcon
        apply hall
        intro d hd
        by_contra hd'
        exact hcon ⟨d, hd, by simpa using hd'⟩
      have hm : matchTail (t ++ (ws ++ '(' :: body ++ [')'])) = none :=
        matchTail_none t _ (fun d hd => (ht d hd).1) hns
      rw [hm]
      have htne : t ≠ [] := by
        obtain ⟨d, hd, _⟩ := hns
        exact List.ne_nil_of_mem hd
      obtain ⟨p1, sp, hsplit, hsp, hmatch⟩ := ih (acc ++ [c]) htne ht
      refine ⟨c :: p1, sp, by rw [hsplit]; rfl, hsp, ?_⟩
      rw [hmatch]
      simp

/-- Trailing whitespace does not change the trimmed text. -/
theorem trim_append_space (x sp : Str) (hsp : ∀ c ∈ sp, isSpace c = true) :
    trim (x ++ sp) = trim x := by
  unfold trim
  by_cases hall : ∀ c ∈ x, isSpace c = true
  · have h1 : (x ++ sp).dropWhile isSpace = [] := by
      apply List.dropWhile_eq_nil_iff.2
      intro c hc
      rcases List.mem_append.1 hc with h | h
      · exact hall c h
      · exact hsp c h
    have h2 : x.dropWhile isSpace = [] := List.dropWhile_eq_nil_iff.2 hall
    rw [h1, h2]
  · have h1 : (x ++ sp).dropWhile isSpace = x.dropWhile isSpace ++ sp := by
      induction x with
      | nil => exact absurd (by simp) hall
      | cons c t ih =>
        by_cases hc : isSpace c = true
        · simp only [List.cons_append, List.dropWhile_cons, hc, if_true]
          apply ih
          intro hcon
          apply hall
          intro d hd
          rcases List.mem_cons.1 hd with rfl | hd'
          · exact hc
          · exact hcon d hd'
        · simp [List.dropWhile_cons, hc]
    rw [h1, List.reverse_append]
    congr 1
    have h2 : ∀ (l : Str), (sp.reverse ++ l).dropWhile isSpace = l.dropWhile isSpace := by
      intro l
      have hr : ∀ c ∈ sp.reverse, isSpace c = true := fun c hc => hsp c (List.mem_reverse.1 hc)
      generalize sp.reverse = r at hr
      induction r with
      | nil => rfl
      | cons c t ih =>
        simp only [List.cons_append, List.dropWhile_cons, hr c (List.mem_cons_self _ _), if_true]
        exact ih (fun d hd => hr d (List.mem_cons_of_mem _ hd))
    exact h2 _

/-- A match of the whole pattern needs an opening parenthesis in the text and a
closing parenthesis at its end. -/
theorem matchName_some (acc s : Str) (g : Str × Str) (h : matchName acc s = some g) :
    '(' ∈ s ∧ s.getLast? = some ')' := by
  induction s generalizing acc with
  | nil => simp [matchName] at h
  | cons c t ih =>
    unfold matchName at h
    split at h
    · cases h
    · split at h
      · rename_i body hm
        unfold matchTail at hm
        have hg := matchGroup_some _ _ hm
        have hsplit := List.takeWhile_append_dropWhile isSpace t
        rw [hg] at hsplit
        rw [← hsplit]
        constructor
        · simp
        · have : c :: (List.takeWhile isSpace t ++ ('(' :: body ++ [')'])) =
              (c :: (List.takeWhile isSpace t ++ '(' :: body)) ++ [')'] := by simp
          rw [this, List.getLast?_concat]
      · obtain ⟨h1, h2⟩ := ih _ h
        refine ⟨List.mem_cons_of_mem _ h1, ?_⟩
        cases t with
        | nil => cases h1
        | cons d u => rw [List.getLast?_cons_cons]; exact h2

/-- C6, as stated, fails: `A (B) (C)` is split at its first parenthesis, into the
name `A` and the form `B) (C`, not into `A (B)` and `C`. -/
theorem parseNameAndForm_splits_at_first :
    parseNameAndForm "A (B) (C)".toList = ("A".toList, "B) (C".toList) ∧
    parseNameAndForm "A (B) (C)".toList ≠ ("A (B)".toList, "C".toList) := by
  refine ⟨by decide, by decide⟩

/-- C6, amended: `parseNameAndForm` splits a display name at its first opening
parenthesis.  For every display name made of a non-empty text `pre` without
opening parenthesis or line terminator, whitespace `ws`, and a parenthesised
non-empty `body` without line terminator whose closing parenthesis ends the
name, the returned name is the trimmed `pre` and the returned form the trimmed
`body` (which may hold parentheses of its own); every display name without an
opening parenthesis, or not ending in a closing parenthesis, is returned
unchanged with an empty form. -/
theorem parseNameAndForm_first_group :
    (∀ pre ws body : Str, pre ≠ [] →
      (∀ c ∈ pre, c ≠ '(' ∧ isLineTerminator c = false) →
      (∀ c ∈ ws, isSpace c = true) → body ≠ [] →
      (∀ c ∈ body, isLineTerminator c = false) →
      parseNameAndForm (pre ++ ws ++ '(' :: body ++ [')']) = (trim pre, trim body)) ∧
    (∀ s : Str, ('(' ∉ s ∨ s.getLast? ≠ some ')') → parseNameAndForm s = (s, [])) := by
  constructor
  · intro pre ws body hne hpre hws hbody hlt
    obtain ⟨p1, sp, hsplit, hsp, hm⟩ :=
      matchName_first_group pre ws body [] hne hpre hws hbody hlt
    have hs : pre ++ ws ++ '(' :: body ++ [')'] = pre ++ (ws ++ '(' :: body ++ [')']) := by simp
    unfold parseNameAndForm
    rw [hs, hm]
    simp only [List.nil_append]
    rw [hsplit, trim_append_space p1 sp hsp]
  · intro s hs
    unfold parseNameAndForm
    cases hm : matchName [] s with
    | none => rfl
    | some g =>
      obtain ⟨h1, h2⟩ := matchName_some [] s g hm
      rcases hs with h | h
      · exact absurd h1 h
      · exact absurd h2 h

/-- The split of `Mr. Mime (Galarian)` and the unchanged `Bulbasaur`. -/
theorem parseNameAndForm_first_group_witness :
    parseNameAndForm "Mr. Mime (Galarian)".toList = ("Mr. Mime".toList, "Galarian".toList) ∧
    parseNameAndForm "Bulbasaur".toList = ("Bulbasaur".toList, []) :=
  ⟨parseNameAndForm_first_group.1 "Mr. Mime".toList " ".toList "Galarian".toList (by decide)
      (by decide) (by decide) (by decide) (by decide),
   parseNameAndForm_first_group.2 "Bulbasaur".toList (Or.inl (by decide))⟩

/-! ## The minifier: each pass shortens the text or leaves it alone -/

/-- Skipping `k` characters of a match is scanning on after dropping them. -/
theorem removeCommentsAux_skip (k : Nat) (s : Str) :
    removeCommentsAux k s = removeCommentsAux 0 (s.drop k) := by
  induction s generalizing k with
  | nil => cases k <;> simp [removeCommentsAux]
  | cons c t ih =>
    cases k with
    | zero => rfl
    | succ k => simp only [removeCommentsAux, List.drop_succ_cons]; exact ih k

/-- Removing comments never lengthens the text. -/
theorem removeComments_length_le (s : Str) : (removeComments s).length ≤ s.length := by
  unfold removeComments
  suffices h : ∀ n (s : Str), s.length ≤ n → (removeCommentsAux 0 s).length ≤ s.length from
    h _ s le_rfl
  intro n
  induction n with
  | zero =>
    intro s hs
    have : s = [] := List.length_eq_zero.1 (Nat.le_zero.1 hs)
    subst this; simp [removeCommentsAux]
  | succ n ih =>
    intro s hs
    cases s with
    | nil => simp [removeCommentsAux]
    | cons c t =>
      have ht : t.length ≤ n := by simpa using hs
      unfold removeCommentsAux
      split
      · split
        · rename_i k _
          rw [removeCommentsAux_skip]
          have h1 := ih (t.drop (k + 1)) (by simp; omega)
          have h2 : (t.drop (k + 1)).length ≤ t.length := by simp
          simp only [List.length_cons]
          omega
        · simp only [List.length_cons]
          have := ih t ht
          omega
      · simp only [List.length_cons]
        have := ih t ht
        omega

/-- One step of the comment scanner, at a position outside any match. -/
theorem removeCommentsAux_cons (c : Char) (t : Str) :
    removeCommentsAux 0 (c :: t) =
      if c = '/' ∧ t.head? = some '*' then
        match commentEnd (t.drop 1) with
        | some k => removeCommentsAux 0 (t.drop (k + 1))
        | none => c :: removeCommentsAux 0 t
      else c :: removeCommentsAux 0 t := by
  rw [removeCommentsAux]
  by_cases hc : c = '/' ∧ t.head? = some '*'
  · rw [if_pos hc, if_pos hc]
    cases commentEnd (t.drop 1) with
    | some k => simp only []; rw [removeCommentsAux_skip]
    | none => rfl
  · rw [if_neg hc, if_neg hc]

/-- One step of the comment test. -/
theorem hasComment_cons (c : Char) (t : Str) :
    hasComment (c :: t) =
      (if c = '/' ∧ t.head? = some '*' then (commentEnd (t.drop 1)).isSome || hasComment t
       else hasComment t) := by
  rw [hasComment]
  by_cases hc : c = '/' ∧ t.head? = some '*'
  · rw [if_pos hc]; simp [hc.1, hc.2]
  · rw [if_neg hc]
    have : (c == '/' && t.head? == some '*') = false := by
      simp only [Bool.and_eq_false_iff, beq_eq_false_iff_ne, ne_eq]
      by_cases h1 : c = '/'
      · right; intro h2; exact hc ⟨h1, by simpa using h2⟩
      · left; exact h1
    rw [this]; simp

/-- A text without comment block is left alone. -/
theorem removeComments_fixed (s : Str) (h : hasComment s = false) : removeComments s = s := by
  unfold removeComments
  induction s with
  | nil => rfl
  | cons c t ih =>
    rw [hasComment_cons] at h
    rw [removeCommentsAux_cons]
    by_cases hc : c = '/' ∧ t.head? = some '*'
    · rw [if_pos hc] at h ⊢
      simp only [Bool.or_eq_false_iff] at h
      cases hk : commentEnd (t.drop 1) with
      | some k => rw [hk] at h; simp at h
      | none => simp only []; rw [ih h.2]
    · rw [if_neg hc] at h ⊢
      rw [ih h]

/-- A text with a comment block gets shorter. -/
theorem removeComments_length_lt (s : Str) (h : hasComment s = true) :
    (removeComments s).length < s.length := by
  unfold removeComments
  induction s with
  | nil => simp [hasComment] at h
  | cons c t ih =>
    rw [hasComment_cons] at h
    rw [removeCommentsAux_cons]
    by_cases hc : c = '/' ∧ t.head? = some '*'
    · rw [if_pos hc] at h ⊢
      cases hk : commentEnd (t.drop 1) with
      | some k =>
        simp only []
        have h1 := removeComments_length_le (t.drop (k + 1))
        unfold removeComments at h1
        have h2 : (t.drop (k + 1)).length ≤ t.length := by simp
        simp only [List.length_cons]
        omega
      | none =>
        rw [hk] at h
        simp only [Option.isSome_none, Bool.false_or] at h
        have := ih h
        simp only [List.length_cons]
        omega
    · rw [if_neg hc] at h ⊢
      have := ih h
      simp only [List.length_cons]
      omega

/-- Replacing runs never lengthens the text. -/
theorem replaceRunsAux_length_le (p : Char → Bool) (r : Char) (b : Bool) (s : Str) :
    (replaceRunsAux p r b s).length ≤ s.length := by
  induction s generalizing b with
  | nil => simp [replaceRunsAux]
  | cons c t ih =>
    unfold replaceRunsAux
    split
    · split
      · have := ih true; simp only [List.length_cons]; omega
      · have := ih true; simp only [List.length_cons]; omega
    · have := ih false; simp only [List.length_cons]; omega

/-- Stripping whitespace around punctuation never lengthens the text. -/
theorem stripAroundPunctAux_length_le (a : Bool) (s : Str) :
    (stripAroundPunctAux a s).length ≤ s.length := by
  induction s generalizing a with
  | nil => simp [stripAroundPunctAux]
  | cons c t ih =>
    unfold stripAroundPunctAux
    split
    · have := ih true; simp only [List.length_cons]; omega
    · split
      · have := ih a; simp only [List.length_cons]; omega
      · have := ih false; simp only [List.length_cons]; omega

/-- Dropping semicolons never lengthens the text. -/
theorem dropSemicolons_length_le (s : Str) : (dropSemicolons s).length ≤ s.length := by
  induction s with
  | nil => simp [dropSemicolons]
  | cons c t ih =>
    unfold dropSemicolons
    split <;> (simp only [List.length_cons]; omega)

/-- A text without `;}` is left alone. -/
theorem dropSemicolons_fixed (s : Str) (h : hasSemicolonBrace s = false) :
    dropSemicolons s = s := by
  induction s with
  | nil => rfl
  | cons c t ih =>
    simp only [hasSemicolonBrace, Bool.or_eq_false_iff] at h
    unfold dropSemicolons
    split
    · rename_i hc
      simp [hc.1, hc.2] at h
    · rw [ih h.2]

/-- A text with `;}` gets shorter. -/
theorem dropSemicolons_length_lt (s : Str) (h : hasSemicolonBrace s = true) :
    (dropSemicolons s).length < s.length := by
  induction s with
  | nil => simp [hasSemicolonBrace] at h
  | cons c t ih =>
    unfold dropSemicolons
    split
    · have := dropSemicolons_length_le t
      simp only [List.length_cons]; omega
    · rename_i hc
      have hh : hasSemicolonBrace t = true := by
        simp only [hasSemicolonBrace, Bool.or_eq_true, Bool.and_eq_true, beq_iff_eq] at h
        rcases h with h | h
        · exact absurd h hc
        · exact h
      have := ih hh
      simp only [List.length_cons]; omega

/-- Trimming never lengthens the text. -/
theorem trimStart_length_le (s : Str) : (trimStart s).length ≤ s.length :=
  (List.dropWhile_suffix isSpace).length_le

/-- Trimming never lengthens the text. -/
theorem trimEnd_length_le (s : Str) : (trimEnd s).length ≤ s.length := by
  unfold trimEnd
  rw [List.length_reverse]
  exact le_trans (List.dropWhile_suffix isSpace).length_le (by simp)

/-! ## The minifier: the shape of its output -/

/-- Punctuation is not whitespace. -/
theorem isPunct_not_space (c : Char) (h : isPunct c = true) : isSpace c = false := by
  simp only [isPunct, Bool.or_eq_true, beq_iff_eq] at h
  rcases h with ((((((h | h) | h) | h) | h) | h) | h) | h <;> (subst h; decide)

/-- After the runs of a class are replaced, no two adjacent characters of the
output are both in the class; inside a run the output does not start with a
character of the class. -/
theorem replaceRunsAux_chain (p : Char → Bool) (r : Char) (b : Bool) (s : Str) :
    List.Chain' (fun x y => ¬ (p x = true ∧ p y = true)) (replaceRunsAux p r b s) ∧
    (b = true → ∀ x ∈ (replaceRunsAux p r b s).head?, p x = false) := by
  induction s generalizing b with
  | nil => simp [replaceRunsAux]
  | cons c t ih =>
    unfold replaceRunsAux
    by_cases hc : p c = true
    · rw [if_pos hc]
      cases b with
      | true => simpa using ih true
      | false =>
        simp only [Bool.false_eq_true, if_false, false_implies, and_true]
        rw [List.chain'_cons']
        refine ⟨fun y hy => ?_, (ih true).1⟩
        have := (ih true).2 rfl y hy
        simp [this]
    · rw [if_neg hc]
      refine ⟨?_, ?_⟩
      · rw [List.chain'_cons']
        exact ⟨fun y _ => by simp [hc], (ih false).1⟩
      · intro _ x hx
        simp only [List.head?_cons, Option.mem_def, Option.some.injEq] at hx
        subst hx; simpa using hc

/-- A text in which the class is only represented by isolated copies of the
replacement is left alone. -/
theorem replaceRunsAux_fixed (p : Char → Bool) (r : Char) (b : Bool) (s : Str)
    (hr : ∀ c ∈ s, p c = true → c = r)
    (hch : List.Chain' (fun x y => ¬ (p x = true ∧ p y = true)) s)
    (hb : b = true → ∀ x ∈ s.head?, p x = false) :
    replaceRunsAux p r b s = s := by
  induction s generalizing b with
  | nil => rfl
  | cons c t ih =>
    unfold replaceRunsAux
    rw [List.chain'_cons'] at hch
    have hr' : ∀ d ∈ t, p d = true → d = r := fun d hd => hr d (List.mem_cons_of_mem _ hd)
    by_cases hc : p c = true
    · have hbf : b = false := by
        cases b with
        | false => rfl
        | true =>
          have := hb rfl c (by simp)
          rw [hc] at this; cases this
      subst hbf
      rw [if_pos hc]
      simp only [Bool.false_eq_true, if_false]
      rw [ih true hr' hch.2 (fun _ x hx => by
        have := hch.1 x hx
        simpa [hc] using this)]
      rw [hr c (List.mem_cons_self _ _) hc]
    · rw [if_neg hc, ih false hr' hch.2 (by simp)]

/-- The whitespace scan stops at punctuation exactly when the text starts with
whitespace followed by punctuation, or with punctuation. -/
theorem punctAhead_cons (c : Char) (t : Str) :
    punctAhead (c :: t) = if isSpace c = true then punctAhead t else isPunct c := by
  unfold punctAhead
  by_cases hc : isSpace c = true
  · simp [List.dropWhile_cons, hc]
  · simp [List.dropWhile_cons, hc]

/-- The characters kept by the punctuation pass come from the text. -/
theorem mem_stripAroundPunctAux (a : Bool) (s : Str) (x : Char)
    (hx : x ∈ stripAroundPunctAux a s) : x ∈ s := by
  induction s generalizing a with
  | nil => simp [stripAroundPunctAux] at hx
  | cons c t ih =>
    unfold stripAroundPunctAux at hx
    split at hx
    · rcases List.mem_cons.1 hx with h | h
      · rw [h]; exact List.mem_cons_self _ _
      · exact List.mem_cons_of_mem _ (ih _ h)
    · split at hx
      · exact List.mem_cons_of_mem _ (ih _ hx)
      · rcases List.mem_cons.1 hx with h | h
        · rw [h]; exact List.mem_cons_self _ _
        · exact List.mem_cons_of_mem _ (ih _ h)

/-- Heads of the output of the punctuation pass: no whitespace after a match or
before punctuation, and punctuation only where the scan found it. -/
theorem stripAroundPunctAux_head (a : Bool) (s : Str) :
    (a = true → ∀ x ∈ (stripAroundPunctAux a s).head?, isSpace x = false) ∧
    (punctAhead s = true → ∀ x ∈ (stripAroundPunctAux a s).head?, isSpace x = false) ∧
    (∀ x ∈ (stripAroundPunctAux a s).head?, isPunct x = true → punctAhead s = true) ∧
    ((∀ x ∈ s.head?, isSpace x = false) →
      ∀ x ∈ (stripAroundPunctAux a s).head?, isSpace x = false) := by
  induction s generalizing a with
  | nil => simp [stripAroundPunctAux]
  | cons c t ih =>
    rw [punctAhead_cons]
    unfold stripAroundPunctAux
    by_cases hp : isPunct c = true
    · have hs := isPunct_not_space c hp
      simp [hp, hs]
    · rw [if_neg hp]
      by_cases hs : isSpace c = true
      · by_cases hcond : (a || punctAhead t) = true
        · have : (isSpace c && (a || punctAhead t)) = true := by simp [hs, hcond]
          rw [if_pos this]
          obtain ⟨i1, i2, i3, _⟩ := ih a
          simp only [hs, if_true]
          refine ⟨i1, i2, i3, ?_⟩
          intro h
          have := h c (by simp)
          rw [hs] at this; cases this
        · have : ¬ (isSpace c && (a || punctAhead t)) = true := by simp [hs, hcond]
          rw [if_neg this]
          simp only [Bool.or_eq_true, not_or, Bool.not_eq_true] at hcond
          simp [hs, hcond.1, hcond.2, hp]
      · have : ¬ (isSpace c && (a || punctAhead t)) = true := by simp [hs]
        rw [if_neg this]
        simp [hs, hp]

/-- On text without doubled whitespace the punctuation pass leaves no whitespace
next to whitespace or punctuation. -/
theorem stripAroundPunctAux_chain (a : Bool) (s : Str)
    (hch : List.Chain' (fun x y => ¬ (isSpace x = true ∧ isSpace y = true)) s) :
    List.Chain' Apart (stripAroundPunctAux a s) := by
  induction s generalizing a with
  | nil => simp [stripAroundPunctAux]
  | cons c t ih =>
    rw [List.chain'_cons'] at hch
    unfold stripAroundPunctAux
    by_cases hp : isPunct c = true
    · have hs := isPunct_not_space c hp
      rw [if_pos hp, List.chain'_cons']
      refine ⟨fun y hy => ?_, ih true hch.2⟩
      have hy' := (stripAroundPunctAux_head true t).1 rfl y hy
      exact ⟨fun h => (by rw [hs] at h; cases h), fun h => (by rw [hy'] at h; cases h)⟩
    · rw [if_neg hp]
      by_cases hs : isSpace c = true
      · by_cases hcond : (a || punctAhead t) = true
        · have : (isSpace c && (a || punctAhead t)) = true := by simp [hs, hcond]
          rw [if_pos this]
          exact ih a hch.2
        · have : ¬ (isSpace c && (a || punctAhead t)) = true := by simp [hs, hcond]
          rw [if_neg this, List.chain'_cons']
          simp only [Bool.or_eq_true, not_or, Bool.not_eq_true] at hcond
          refine ⟨fun y hy => ?_, ih false hch.2⟩
          obtain ⟨_, _, i3, i4⟩ := stripAroundPunctAux_head false t
          have hy1 : isSpace y = false := by
            apply i4 _ y hy
            intro x hx
            have := hch.1 x hx
            simpa [hs] using this
          have hy2 : isPunct y = false := by
            by_contra hcon
            have := i3 y hy (by simpa using hcon)
            rw [hcond.2] at this; cases this
          exact ⟨fun _ => ⟨hy1, hy2⟩, fun h => (by rw [hy1] at h; cases h)⟩
      · have : ¬ (isSpace c && (a || punctAhead t)) = true := by simp [hs]
        rw [if_neg this, List.chain'_cons']
        refine ⟨fun y _ => ?_, ih false hch.2⟩
        exact ⟨fun h => absurd h hs, fun _ => ⟨by simpa using hs, by simpa using hp⟩⟩

/-- The characters kept by the semicolon pass come from the text. -/
theorem mem_dropSemicolons (s : Str) (x : Char) (hx : x ∈ dropSemicolons s) : x ∈ s := by
  induction s with
  | nil => simp [dropSemicolons] at hx
  | cons c t ih =>
    unfold dropSemicolons at hx
    split at hx
    · exact List.mem_cons_of_mem _ (ih hx)
    · rcases List.mem_cons.1 hx with h | h
      · rw [h]; exact List.mem_cons_self _ _
      · exact List.mem_cons_of_mem _ (ih h)

/-- The semicolon pass keeps the first character, or replaces a leading `;}` by
the brace. -/
theorem dropSemicolons_head (s : Str) :
    (dropSemicolons s).head? = s.head? ∨
    (s.head? = some ';' ∧ (dropSemicolons s).head? = some '\x7d') := by
  cases s with
  | nil => left; rfl
  | cons c t =>
    unfold dropSemicolons
    split
    · rename_i hc
      right
      refine ⟨by simp [hc.1], ?_⟩
      cases t with
      | nil => simp at hc
      | cons d u =>
        have hd : d = '\x7d' := by simpa using hc.2
        subst hd
        unfold dropSemicolons
        rw [if_neg (fun hcon => absurd hcon.1 (by decide))]
        rfl
    · left; rfl

/-- The semicolon pass keeps the shape of minified text. -/
theorem dropSemicolons_tidy (s : Str) (h : Tidy s) : Tidy (dropSemicolons s) := by
  refine ⟨fun c hc => h.1 c (mem_dropSemicolons s c hc), ?_⟩
  have hch := h.2
  clear h
  induction s with
  | nil => simp [dropSemicolons]
  | cons c t ih =>
    rw [List.chain'_cons'] at hch
    unfold dropSemicolons
    split
    · exact ih hch.2
    · rw [List.chain'_cons']
      refine ⟨fun y hy => ?_, ih hch.2⟩
      rcases dropSemicolons_head t with h | ⟨h1, h2⟩
      · rw [h] at hy; exact hch.1 y hy
      · rw [h2] at hy
        simp only [Option.mem_def, Option.some.injEq] at hy
        subst hy
        have hsemi := hch.1 ';' h1
        have hc : isSpace c = false := by
          by_contra hcon
          have := (hsemi.1 (by simpa using hcon)).2
          revert this; decide
        exact ⟨fun h => (by rw [hc] at h; cases h), fun h => absurd h (by decide)⟩

/-- A suffix of tidy text is tidy. -/
theorem Tidy.of_suffix {s t : Str} (h : Tidy t) (hs : s <:+ t) : Tidy s :=
  ⟨fun c hc => h.1 c (hs.subset hc), h.2.suffix hs⟩

/-- A prefix of tidy text is tidy. -/
theorem Tidy.of_initial {s t : Str} (h : Tidy t) (hs : s <+: t) : Tidy s :=
  ⟨fun c hc => h.1 c (hs.subset hc), List.Chain'.prefix h.2 hs⟩

/-- The end trim yields a prefix. -/
theorem trimEnd_initial (s : Str) : trimEnd s <+: s := by
  unfold trimEnd
  have := List.dropWhile_suffix isSpace (l := s.reverse)
  rw [← List.reverse_prefix] at this
  simpa using this

/-- After the start trim the text does not start with whitespace. -/
theorem trimStart_head (s : Str) : ∀ x ∈ (trimStart s).head?, isSpace x = false := by
  intro x hx
  unfold trimStart at hx
  have := List.head?_dropWhile_not isSpace s
  rw [Option.mem_def] at hx
  rw [hx] at this
  simpa using this

/-- The two trims yield text without whitespace at either end. -/
theorem trim_trimmed (s : Str) : Trimmed (trimEnd (trimStart s)) := by
  constructor
  · intro x hx
    obtain ⟨u, hu⟩ := trimEnd_initial (trimStart s)
    cases hte : trimEnd (trimStart s) with
    | nil => rw [hte] at hx; cases hx
    | cons d v =>
      rw [hte] at hx hu
      simp only [List.head?_cons, Option.mem_def, Option.some.injEq] at hx
      subst hx
      apply trimStart_head s
      rw [← hu]; simp
  · intro x hx
    unfold trimEnd at hx
    rw [List.getLast?_reverse] at hx
    have := List.head?_dropWhile_not isSpace (trimStart s).reverse
    rw [Option.mem_def] at hx
    rw [hx] at this
    simpa using this

/-- Text that does not start with whitespace is left alone by the start trim. -/
theorem trimStart_fixed (s : Str) (h : ∀ x ∈ s.head?, isSpace x = false) : trimStart s = s := by
  cases s with
  | nil => rfl
  | cons c t =>
    have := h c (by simp)
    simp [trimStart, List.dropWhile_cons, this]

/-- Text that does not end with whitespace is left alone by the end trim. -/
theorem trimEnd_fixed (s : Str) (h : ∀ x ∈ s.getLast?, isSpace x = false) : trimEnd s = s := by
  unfold trimEnd
  have h' : ∀ x ∈ s.reverse.head?, isSpace x = false := by
    intro x hx
    rw [List.head?_reverse] at hx
    exact h x hx
  have := trimStart_fixed s.reverse h'
  unfold trimStart at this
  rw [this, List.reverse_reverse]

/-- Tidy text is left alone by the punctuation pass. -/
theorem stripAroundPunctAux_fixed (a : Bool) (s : Str) (hch : List.Chain' Apart s)
    (ha : a = true → ∀ x ∈ s.head?, isSpace x = false) : stripAroundPunctAux a s = s := by
  induction s generalizing a with
  | nil => rfl
  | cons c t ih =>
    rw [List.chain'_cons'] at hch
    unfold stripAroundPunctAux
    by_cases hp : isPunct c = true
    · rw [if_pos hp]
      rw [ih true hch.2 (fun _ x hx => by
        by_contra hcon
        have := ((hch.1 x hx).2 (by simpa using hcon)).2
        rw [hp] at this; cases this)]
    · rw [if_neg hp]
      by_cases hs : isSpace c = true
      · have haf : a = false := by
          cases a with
          | false => rfl
          | true =>
            have := ha rfl c (by simp)
            rw [hs] at this; cases this
        subst haf
        have hpa : punctAhead t = false := by
          cases t with
          | nil => rfl
          | cons d u =>
            have hd := (hch.1 d (by simp)).1 hs
            rw [punctAhead_cons]
            simp [hd.1, hd.2]
        have : ¬ (isSpace c && (false || punctAhead t)) = true := by simp [hpa]
        rw [if_neg this, ih false hch.2 (by simp)]
      · have : ¬ (isSpace c && (a || punctAhead t)) = true := by simp [hs]
        rw [if_neg this, ih false hch.2 (by simp)]

/-! ## The minifier: a second pass -/

/-- Minified text is tidy and trimmed. -/
theorem minifyCSS_shape (css : Str) : Tidy (minifyCSS css) ∧ Trimmed (minifyCSS css) := by
  refine ⟨?_, trim_trimmed _⟩
  unfold minifyCSS
  apply Tidy.of_initial _ (trimEnd_initial _)
  apply Tidy.of_suffix _ (List.dropWhile_suffix isSpace)
  apply dropSemicolons_tidy
  have h1 : ∀ c ∈ replaceRuns isSpace ' ' (removeComments css),
      isSpace c = true → c = ' ' := by
    intro c hc hs
    rcases mem_replaceRunsAux _ _ _ _ _ hc with h | ⟨_, h⟩
    · exact h
    · rw [hs] at h; cases h
  exact ⟨fun c hc => h1 c (mem_stripAroundPunctAux _ _ _ hc),
    stripAroundPunctAux_chain false _ (replaceRunsAux_chain isSpace ' ' false _).1⟩

/-- On tidy, trimmed text only the comment pass and the semicolon pass can act:
the minifier leaves the text alone exactly when it holds no comment block and
no `;}`. -/
theorem minifyCSS_fixed_iff (m : Str) (ht : Tidy m) (hr : Trimmed m) :
    minifyCSS m = m ↔ hasComment m = false ∧ hasSemicolonBrace m = false := by
  have hws : replaceRuns isSpace ' ' m = m :=
    replaceRunsAux_fixed isSpace ' ' false m ht.1
      (ht.2.imp (fun {a b} hab => by
        rintro ⟨h1, h2⟩
        have := (hab.1 h1).1
        rw [h2] at this; cases this)) (by simp)
  have hsp : stripAroundPunct m = m := stripAroundPunctAux_fixed false m ht.2 (by simp)
  have hts : trimStart m = m := trimStart_fixed m hr.1
  have hte : trimEnd m = m := trimEnd_fixed m hr.2
  have hlen : ∀ x : Str, (trimEnd (trimStart (dropSemicolons (stripAroundPunct
      (replaceRuns isSpace ' ' x))))).length ≤ x.length := by
    intro x
    have h1 := trimEnd_length_le (trimStart (dropSemicolons (stripAroundPunct
      (replaceRuns isSpace ' ' x))))
    have h2 := trimStart_length_le (dropSemicolons (stripAroundPunct
      (replaceRuns isSpace ' ' x)))
    have h3 := dropSemicolons_length_le (stripAroundPunct (replaceRuns isSpace ' ' x))
    have h4 := stripAroundPunctAux_length_le false (replaceRuns isSpace ' ' x)
    have h5 := replaceRunsAux_length_le isSpace ' ' false x
    unfold stripAroundPunct replaceRuns at *
    omega
  constructor
  · intro h
    have hc : hasComment m = false := by
      by_contra hcon
      have h1 := removeComments_length_lt m (by simpa using hcon)
      have h2 := hlen (removeComments m)
      have h3 : (minifyCSS m).length = m.length := by rw [h]
      unfold minifyCSS at h3
      omega
    refine ⟨hc, ?_⟩
    by_contra hcon
    have h1 := dropSemicolons_length_lt m (by simpa using hcon)
    have h2 := trimEnd_length_le (trimStart (dropSemicolons m))
    have h3 := trimStart_length_le (dropSemicolons m)
    have h4 : (minifyCSS m).length = m.length := by rw [h]
    unfold minifyCSS at h4
    rw [removeComments_fixed m hc, hws, hsp] at h4
    omega
  · rintro ⟨hc, hsb⟩
    unfold minifyCSS
    rw [removeComments_fixed m hc, hws, hsp, dropSemicolons_fixed m hsb, hts, hte]

/-- C9, as stated, fails: `a{b;;}` minifies to `a{b;}`, which minifies to
`a{b}`. -/
theorem minifyCSS_not_idempotent :
    minifyCSS "a\x7bb;;\x7d".toList = "a\x7bb;\x7d".toList ∧
    minifyCSS "a\x7bb;\x7d".toList = "a\x7bb\x7d".toList ∧
    minifyCSS (minifyCSS "a\x7bb;;\x7d".toList) ≠ minifyCSS "a\x7bb;;\x7d".toList := by
  refine ⟨by decide, by decide, by decide⟩

/-- C9, amended: for every input text the minifier leaves its own output
unchanged, `minifyCSS(minifyCSS(css)) = minifyCSS(css)`, exactly when that
output holds no comment block (`/*` with a `*/` after it) and no `;}`; the
whitespace, punctuation and trim passes never act on minified text. -/
theorem minifyCSS_idempotent_iff (css : Str) :
    minifyCSS (minifyCSS css) = minifyCSS css ↔
      hasComment (minifyCSS css) = false ∧ hasSemicolonBrace (minifyCSS css) = false :=
  minifyCSS_fixed_iff _ (minifyCSS_shape css).1 (minifyCSS_shape css).2

/-- A second way for the minifier to act again: removing the comment of
`//**/* x */` joins the text around it into the comment `/* x */`, which the
next run removes. -/
theorem minifyCSS_comment_reappears :
    minifyCSS "//**/* x */".toList = "/* x */".toList ∧ minifyCSS "/* x */".toList = [] := by
  refine ⟨by decide, by decide⟩

/-! ## Decimal rendering of the dex -/

/-- The digit characters are `0` to `9` and carry their value. -/
theorem digitChar_spec (k : Nat) (hk : k < 10) :
    (Nat.digitChar k).toNat - 48 = k ∧ (Nat.digitChar k).isDigit = true := by
  interval_cases k <;> decide

/-- Reading back the digits produced for `n` in front of `ds` is reading `ds`
from the value `n`. -/
theorem toDigitsCore_value (fuel n : Nat) (ds : Str) (hn : n < fuel) :
    (Nat.toDigitsCore 10 fuel n ds).foldl (fun acc c => acc * 10 + (c.toNat - 48)) 0 =
      ds.foldl (fun acc c => acc * 10 + (c.toNat - 48)) n := by
  induction fuel generalizing n ds with
  | zero => omega
  | succ fuel ih =>
    unfold Nat.toDigitsCore
    have hd := (digitChar_spec (n % 10) (Nat.mod_lt _ (by decide))).1
    by_cases h0 : n / 10 = 0
    · simp only [h0, if_true, List.foldl_cons, Nat.zero_mul, Nat.zero_add, hd]
      congr 1
      omega
    · simp only [h0, if_false]
      rw [ih (n / 10) _ (by omega)]
      simp only [List.foldl_cons, hd]
      congr 1
      omega

/-- The digits produced are decimal digits. -/
theorem toDigitsCore_digits (fuel n : Nat) (ds : Str) (c : Char)
    (hc : c ∈ Nat.toDigitsCore 10 fuel n ds) : c.isDigit = true ∨ c ∈ ds := by
  induction fuel generalizing n ds with
  | zero => right; simpa [Nat.toDigitsCore] using hc
  | succ fuel ih =>
    unfold Nat.toDigitsCore at hc
    have hd := (digitChar_spec (n % 10) (Nat.mod_lt _ (by decide))).2
    by_cases h0 : n / 10 = 0
    · simp only [h0, if_true, List.mem_cons] at hc
      rcases hc with h | h
      · left; rw [h]; exact hd
      · right; exact h
    · simp only [h0, if_false] at hc
      rcases ih _ _ hc with h | h
      · left; exact h
      · rcases List.mem_cons.1 h with h | h
        · left; rw [h]; exact hd
        · right; exact h

/-- The rendering of a dex consists of decimal digits. -/
theorem dexString_digits (dex : Nat) (c : Char) (hc : c ∈ dexString dex) : c.isDigit = true := by
  have : dexString dex = Nat.toDigitsCore 10 (dex + 1) dex [] := rfl
  rw [this] at hc
  rcases toDigitsCore_digits _ _ _ _ hc with h | h
  · exact h
  · cases h

/-- Different dex values are rendered differently. -/
theorem dexString_injective (d e : Nat) (h : dexString d = dexString e) : d = e := by
  have hd : dexString d = Nat.toDigitsCore 10 (d + 1) d [] := rfl
  have he : dexString e = Nat.toDigitsCore 10 (e + 1) e [] := rfl
  have h1 := toDigitsCore_value (d + 1) d [] (by omega)
  have h2 := toDigitsCore_value (e + 1) e [] (by omega)
  rw [← hd, h, he, h2] at h1
  simpa using h1.symm

/-- Two texts free of a separator, each followed by the separator: if one
continuation starts with the other up to the separator, the texts are equal. -/
theorem eq_of_separated (sep : Char) (a b y : Str) (ha : sep ∉ a) (hb : sep ∉ b)
    (h : a ++ [sep] <+: b ++ sep :: y) : a = b := by
  induction a generalizing b with
  | nil =>
    cases b with
    | nil => rfl
    | cons c t =>
      obtain ⟨u, hu⟩ := h
      simp only [List.nil_append, List.cons_append, List.cons.injEq] at hu
      exact absurd (hu.1 ▸ List.mem_cons_self _ _) hb
  | cons c t ih =>
    cases b with
    | nil =>
      obtain ⟨u, hu⟩ := h
      simp only [List.cons_append, List.nil_append, List.cons.injEq] at hu
      exact absurd (hu.1 ▸ List.mem_cons_self _ _) ha
    | cons d v =>
      obtain ⟨u, hu⟩ := h
      simp only [List.cons_append, List.cons.injEq] at hu
      rw [hu.1]
      congr 1
      exact ih v (fun hm => ha (List.mem_cons_of_mem _ hm))
        (fun hm => hb (List.mem_cons_of_mem _ hm)) ⟨u, hu.2⟩

/-! ## Dex aliases: the rule texts -/

/-- The alias rule of an entry has the selector `.pogo-{d}` exactly when `d` is
the dex of the entry. -/
theorem hasDexSelector_aliasRule (d : Nat) (e : Entry) :
    hasDexSelector d (aliasRule e) = decide (e.dex = d) := by
  have hsp : ∀ n, ' ' ∉ dexString n := by
    intro n hmem
    have := dexString_digits n ' ' hmem
    revert this; decide
  by_cases hde : e.dex = d
  · subst hde
    simp only [decide_True]
    unfold hasDexSelector
    rw [List.isPrefixOf_iff_prefix]
    unfold aliasRule ruleBlock
    refine ⟨"\n  --pogo-sprite: url('".toList ++ spritePath e ++
      "');\n  --pogo-sprite-shiny: url('".toList ++ shinyPath e ++ "');\n\x7d".toList, ?_⟩
    simp [List.append_assoc]
  · simp only [hde, decide_False]
    apply Bool.eq_false_iff.2
    intro h
    unfold hasDexSelector at h
    rw [List.isPrefixOf_iff_prefix] at h
    unfold aliasRule ruleBlock at h
    simp only [List.append_assoc] at h
    rw [List.prefix_append_right_inj] at h
    have h' : dexString d ++ [' '] <+:
        dexString e.dex ++ ' ' :: ("\x7b\n  --pogo-sprite: url('".toList ++ (spritePath e ++
          ("');\n  --pogo-sprite-shiny: url('".toList ++ (shinyPath e ++
            "');\n\x7d".toList)))) := by
      refine List.IsPrefix.trans ⟨['\x7b'], ?_⟩ h
      simp
    exact hde (dexString_injective _ _ (eq_of_separated ' ' _ _ _ (hsp d) (hsp e.dex) h')).symm

/-- C8: for every mapping and every dex value, the dex-alias rules with the
selector `.pogo-{dex}` are exactly one rule, built from the sprite paths of the
first entry of the mapping that has an empty form and that dex, when there is
such an entry, and none when there is no such entry. -/
theorem cssLoop_dex_aliases (speciesMap : List Entry) (d : Nat) :
    (cssLoop speciesMap).dexAliases.filter (hasDexSelector d) =
      ((speciesMap.find? (fun e => e.form = [] ∧ e.dex = d)).map aliasRule).toList := by
  obtain ⟨picked, _, hal, hd⟩ := cssLoop_alias_entries speciesMap
  rw [hal, List.filter_map]
  have : (hasDexSelector d ∘ aliasRule) = fun e => decide (e.dex = d) := by
    funext e
    exact hasDexSelector_aliasRule d e
  rw [this, hd d]
  cases speciesMap.find? (fun e => e.form = [] ∧ e.dex = d) <;> rfl

end PogoIcons
